import Mathlib

/-!
# Verification of the DOCS persistent key-value store and its RESP server

A shallow embedding of the storage engine of `Assignment3/parta`
(shard log files driven by `BinControl`, the spin-guarded LRU cache,
and the sharded `PersistentHashMap`) and of the RESP session of
`Assignment3/partc/src/server.cpp`, together with proofs about them.

Byte strings (`std::string` keys and values, raw wire bytes) are
modelled as `List Nat`; every C++ function is translated into a Lean
function that follows the source control flow.  A shard file is
modelled at two levels: as a `List Record` for the operations that
only ever see well-formed files (`insert`, `get`, `erase`,
`compressFile`), and as a raw byte list for `binCheck`, which must
recover from arbitrary file contents.
-/

/-- A byte string (`std::string` contents / raw wire bytes). -/
abbrev Bytes := List Nat

/-! ## Shard log records (`BinControl`, record level) -/

/-- One record of a shard (`.bkt`) file: header fields `key_len`,
`value_len`, `deleted`, followed by the key bytes and the value bytes.
At the record level the two lengths are determined by `key` and
`value`, so only the remaining three fields are stored. -/
structure Record where
  key : Bytes
  value : Bytes
  deleted : Bool
deriving DecidableEq

/-- The scan loop of `BinControl::insert` (persistent_hashmap.cpp,
lines 18-52): walk the file from offset 0, skipping records that are
tombstoned or whose key does not match; the first live record whose
key equals `k` has its `deleted` byte overwritten with 1, after which
the loop seeks to the end of the file, leaving the rest unchanged. -/
def insertScan (k : Bytes) : List Record → List Record
  | [] => []
  | r :: rest =>
    if !r.deleted && r.key == k then
      { r with deleted := true } :: rest
    else
      r :: insertScan k rest

/-- `BinControl::insert`, effect on the shard file: tombstone the live
record for `k` found by the scan (if any), then append a fresh record
with `deleted = 0` at the end of the file. -/
def insertFile (k v : Bytes) (f : List Record) : List Record :=
  insertScan k f ++ [⟨k, v, false⟩]

/-- The file scan of `BinControl::get` (lines 87-132): skip records
that are tombstoned or whose key does not match; return the value of
the first record whose key equals `k`; `none` at end of file. -/
def fileGet (k : Bytes) : List Record → Option Bytes
  | [] => none
  | r :: rest =>
    if !r.deleted && r.key == k then some r.value else fileGet k rest

/-- The scan loop of `BinControl::erase` (lines 151-197): tombstone
the first live record whose key equals `k` and stop with `true`;
return `false` with the file unchanged when no such record exists. -/
def eraseScan (k : Bytes) : List Record → Bool × List Record
  | [] => (false, [])
  | r :: rest =>
    if !r.deleted && r.key == k then
      (true, { r with deleted := true } :: rest)
    else
      let p := eraseScan k rest
      (p.1, r :: p.2)

/-- `BinControl::compressFile` (lines 203-268), record level: each
record is read at the read cursor and, unless it is tombstoned,
written back at the write cursor; tombstoned records are skipped, and
the final truncation discards the reclaimed suffix. -/
def compressFile : List Record → List Record
  | [] => []
  | r :: rest => if r.deleted then compressFile rest else r :: compressFile rest

/-- The records of a file that are live for key `k`: not tombstoned
and with key equal to `k`. -/
def liveFor (k : Bytes) (f : List Record) : List Record :=
  f.filter fun r => !r.deleted && r.key == k

/-- Invariant 2 of the spec: at most one record of a shard file is
both non-tombstoned and carries a given key. -/
def AtMostOneLive (f : List Record) : Prop :=
  ∀ k, (liveFor k f).length ≤ 1

theorem liveFor_nil (k : Bytes) : liveFor k [] = [] := rfl

theorem liveFor_cons (k : Bytes) (r : Record) (f : List Record) :
    liveFor k (r :: f) =
      if !r.deleted && r.key == k then r :: liveFor k f else liveFor k f := by
  simp only [liveFor, List.filter_cons]

theorem liveFor_append (k : Bytes) (f g : List Record) :
    liveFor k (f ++ g) = liveFor k f ++ liveFor k g := by
  simp [liveFor, List.filter_append]

/-- The `get` scan returns the value of the first live record for the
key, i.e. the head of `liveFor`. -/
theorem fileGet_eq_liveFor (k : Bytes) (f : List Record) :
    fileGet k f = (liveFor k f).head?.map Record.value := by
  induction f with
  | nil => rfl
  | cons r rest ih =>
    by_cases h : (!r.deleted && r.key == k) = true
    · simp [fileGet, liveFor_cons, h]
    · simp [fileGet, liveFor_cons, h, ih]

/-- The insert scan removes exactly the first live record for its key
from the live set. -/
theorem liveFor_insertScan (k : Bytes) (f : List Record) :
    liveFor k (insertScan k f) = (liveFor k f).tail := by
  induction f with
  | nil => rfl
  | cons r rest ih =>
    by_cases h : (!r.deleted && r.key == k) = true
    · simp [insertScan, h, liveFor_cons]
    · simp [insertScan, h, liveFor_cons, ih]

/-- The insert scan leaves the live set of every other key unchanged:
the only record it rewrites has key `k`. -/
theorem liveFor_insertScan_ne {k k0 : Bytes} (h : k0 ≠ k) (f : List Record) :
    liveFor k0 (insertScan k f) = liveFor k0 f := by
  induction f with
  | nil => rfl
  | cons r rest ih =>
    by_cases hr : (!r.deleted && r.key == k) = true
    · have hkey : r.key = k := by
        have := (Bool.and_eq_true _ _).mp hr
        exact eq_of_beq this.2
      have hne : (r.key == k0) = false := by
        simp [hkey, (Ne.symm h)]
      simp [insertScan, hr, liveFor_cons, hne]
    · simp [insertScan, hr, liveFor_cons, ih]

/-- The erase scan removes exactly the first live record for its key
from the live set. -/
theorem liveFor_eraseScan (k : Bytes) (f : List Record) :
    liveFor k (eraseScan k f).2 = (liveFor k f).tail := by
  induction f with
  | nil => rfl
  | cons r rest ih =>
    by_cases h : (!r.deleted && r.key == k) = true
    · simp [eraseScan, h, liveFor_cons]
    · simp [eraseScan, h, liveFor_cons, ih]

/-- The erase scan leaves the live set of every other key unchanged. -/
theorem liveFor_eraseScan_ne {k k0 : Bytes} (h : k0 ≠ k) (f : List Record) :
    liveFor k0 (eraseScan k f).2 = liveFor k0 f := by
  induction f with
  | nil => rfl
  | cons r rest ih =>
    by_cases hr : (!r.deleted && r.key == k) = true
    · have hkey : r.key = k := by
        have := (Bool.and_eq_true _ _).mp hr
        exact eq_of_beq this.2
      have hne : (r.key == k0) = false := by
        simp [hkey, (Ne.symm h)]
      simp [eraseScan, hr, liveFor_cons, hne]
    · simp [eraseScan, hr, liveFor_cons, ih]

/-- The erase scan reports success exactly when a live record for the
key exists. -/
theorem eraseScan_fst (k : Bytes) (f : List Record) :
    (eraseScan k f).1 = !(liveFor k f).isEmpty := by
  induction f with
  | nil => rfl
  | cons r rest ih =>
    by_cases h : (!r.deleted && r.key == k) = true
    · simp [eraseScan, h, liveFor_cons]
    · simp [eraseScan, h, liveFor_cons, ih]

/-- When no live record for the key exists, the erase scan returns
`false` and leaves the file untouched. -/
theorem eraseScan_of_no_live (k : Bytes) (f : List Record)
    (h : liveFor k f = []) : eraseScan k f = (false, f) := by
  induction f with
  | nil => rfl
  | cons r rest ih =>
    by_cases hr : (!r.deleted && r.key == k) = true
    · rw [liveFor_cons, if_pos hr] at h
      cases h
    · rw [liveFor_cons, if_neg hr] at h
      simp [eraseScan, hr, ih h]

/-- Compaction filters out exactly the tombstoned records. -/
theorem compressFile_eq_filter (f : List Record) :
    compressFile f = f.filter fun r => !r.deleted := by
  induction f with
  | nil => rfl
  | cons r rest ih =>
    by_cases h : r.deleted
    · simp [compressFile, h, ih]
    · simp [compressFile, h, ih]

/-- Compaction preserves the live set of every key. -/
theorem liveFor_compressFile (k : Bytes) (f : List Record) :
    liveFor k (compressFile f) = liveFor k f := by
  induction f with
  | nil => rfl
  | cons r rest ih =>
    by_cases hd : r.deleted
    · simp [compressFile, hd, liveFor_cons, ih]
    · by_cases hk : (r.key == k) = true
      · simp [compressFile, hd, liveFor_cons, hk, ih]
      · simp [compressFile, hd, liveFor_cons, hk, ih]

theorem liveFor_insertFile_self (k v : Bytes) (f : List Record) :
    liveFor k (insertFile k v f) = (liveFor k f).tail ++ [⟨k, v, false⟩] := by
  rw [insertFile, liveFor_append, liveFor_insertScan]
  simp [liveFor_cons, liveFor_nil]

theorem liveFor_insertFile_ne {k k0 : Bytes} (h : k0 ≠ k) (v : Bytes)
    (f : List Record) : liveFor k0 (insertFile k v f) = liveFor k0 f := by
  rw [insertFile, liveFor_append, liveFor_insertScan_ne h]
  simp [liveFor_cons, liveFor_nil, Ne.symm h]

theorem tail_of_length_le_one {α : Type} {l : List α} (h : l.length ≤ 1) :
    l.tail = [] := by
  cases l with
  | nil => rfl
  | cons a t =>
    cases t with
    | nil => rfl
    | cons b t' => simp at h

/-- Under the at-most-one-live invariant, the value read back for `k`
immediately after `insert(k, v)` is `v`. -/
theorem fileGet_insertFile_self (k v : Bytes) (f : List Record)
    (h : (liveFor k f).length ≤ 1) :
    fileGet k (insertFile k v f) = some v := by
  rw [fileGet_eq_liveFor, liveFor_insertFile_self, tail_of_length_le_one h]
  rfl

theorem fileGet_insertFile_ne {k k0 : Bytes} (h : k0 ≠ k) (v : Bytes)
    (f : List Record) : fileGet k0 (insertFile k v f) = fileGet k0 f := by
  rw [fileGet_eq_liveFor, fileGet_eq_liveFor, liveFor_insertFile_ne h]

/-- Under the at-most-one-live invariant, no live record for `k`
remains after `erase(k)`. -/
theorem fileGet_eraseScan_self (k : Bytes) (f : List Record)
    (h : (liveFor k f).length ≤ 1) :
    fileGet k (eraseScan k f).2 = none := by
  rw [fileGet_eq_liveFor, liveFor_eraseScan, tail_of_length_le_one h]
  rfl

theorem fileGet_eraseScan_ne {k k0 : Bytes} (h : k0 ≠ k) (f : List Record) :
    fileGet k0 (eraseScan k f).2 = fileGet k0 f := by
  rw [fileGet_eq_liveFor, fileGet_eq_liveFor, liveFor_eraseScan_ne h]

theorem fileGet_compressFile (k : Bytes) (f : List Record) :
    fileGet k (compressFile f) = fileGet k f := by
  rw [fileGet_eq_liveFor, fileGet_eq_liveFor, liveFor_compressFile]

/-- `insert` preserves the at-most-one-live invariant. -/
theorem atMostOneLive_insertFile (k v : Bytes) (f : List Record)
    (h : AtMostOneLive f) : AtMostOneLive (insertFile k v f) := by
  intro k0
  by_cases hk : k0 = k
  · subst hk
    rw [liveFor_insertFile_self, tail_of_length_le_one (h k0)]
    simp
  · rw [liveFor_insertFile_ne hk]
    exact h k0

/-- `erase` preserves the at-most-one-live invariant. -/
theorem atMostOneLive_eraseScan (k : Bytes) (f : List Record)
    (h : AtMostOneLive f) : AtMostOneLive (eraseScan k f).2 := by
  intro k0
  by_cases hk : k0 = k
  · subst hk
    rw [liveFor_eraseScan, List.length_tail]
    have := h k0
    omega
  · rw [liveFor_eraseScan_ne hk]
    exact h k0

/-- Compaction preserves the at-most-one-live invariant. -/
theorem atMostOneLive_compressFile (f : List Record)
    (h : AtMostOneLive f) : AtMostOneLive (compressFile f) := by
  intro k0
  rw [liveFor_compressFile]
  exact h k0

/-! ## LRU cache (`LRUCacheSegment`, lru_cache.cpp) -/

/-- First-match association-list lookup: the `lruMap.find(key)` of the
source (`std::unordered_map` holds at most one entry per key, which the
no-duplicate-keys invariant mirrors). -/
def alookup (k : Bytes) : List (Bytes × Bytes) → Option Bytes
  | [] => none
  | p :: rest => if p.1 == k then some p.2 else alookup k rest

/-- Overwrite the value stored for `k`: the `element->value = value`
of `LRUCacheSegment::put` on a present key (the map and the order list
share the element, so only the value changes). -/
def aupdate (k v : Bytes) : List (Bytes × Bytes) → List (Bytes × Bytes)
  | [] => []
  | p :: rest => if p.1 == k then (p.1, v) :: rest else p :: aupdate k v rest

/-- Remove the entry for `k`: the `lruMap.erase(key)` of the source. -/
def aerase (k : Bytes) : List (Bytes × Bytes) → List (Bytes × Bytes)
  | [] => []
  | p :: rest => if p.1 == k then rest else p :: aerase k rest

/-- The keys of an association list. -/
def akeys (m : List (Bytes × Bytes)) : List Bytes := m.map Prod.fst

/-- `LRUCacheSegment`: `lruList` is the recency order of the cached
keys (most recent first; the source stores shared pointers to the
elements, identified here by their unique key), `lruMap` the key
index holding the values. -/
structure LRUCacheSegment where
  capacity : Nat
  lruList : List Bytes
  lruMap : List (Bytes × Bytes)
deriving DecidableEq

/-- A freshly constructed cache segment. -/
def lruInit (capacity : Nat) : LRUCacheSegment := ⟨capacity, [], []⟩

/-- `LRUCacheSegment::put` (lru_cache.cpp, lines 16-44): on a present
key, overwrite the value and promote the entry to the front; on an
absent key, push a new front entry and, if the size now exceeds the
capacity, evict the back entry from both the list and the map. -/
def lruPut (k v : Bytes) (c : LRUCacheSegment) : LRUCacheSegment :=
  if (alookup k c.lruMap).isSome then
    { c with lruMap := aupdate k v c.lruMap, lruList := k :: c.lruList.erase k }
  else
    let list1 := k :: c.lruList
    let map1 := (k, v) :: c.lruMap
    if list1.length > c.capacity then
      let t := list1.getLast (List.cons_ne_nil _ _)
      { c with lruList := list1.dropLast, lruMap := aerase t map1 }
    else
      { c with lruList := list1, lruMap := map1 }

/-- `LRUCacheSegment::get` (lines 46-61): on a hit, promote the entry
to the front of the recency list and return its value. -/
def lruGet (k : Bytes) (c : LRUCacheSegment) : Option Bytes × LRUCacheSegment :=
  match alookup k c.lruMap with
  | some v => (some v, { c with lruList := k :: c.lruList.erase k })
  | none => (none, c)

/-- `LRUCacheSegment::remove` (lines 63-74): drop the entry from both
the recency list and the key index when present. -/
def lruRemove (k : Bytes) (c : LRUCacheSegment) : LRUCacheSegment :=
  if (alookup k c.lruMap).isSome then
    { c with lruList := c.lruList.erase k, lruMap := aerase k c.lruMap }
  else c

theorem aerase_sublist (k : Bytes) (m : List (Bytes × Bytes)) :
    (aerase k m).Sublist m := by
  induction m with
  | nil => simp [aerase]
  | cons p rest ih =>
    by_cases h : (p.1 == k) = true
    · simp only [aerase, if_pos h]
      exact List.sublist_cons_self p rest
    · simp only [aerase, if_neg h]
      exact ih.cons₂ p

theorem akeys_aupdate (k v : Bytes) (m : List (Bytes × Bytes)) :
    akeys (aupdate k v m) = akeys m := by
  induction m with
  | nil => rfl
  | cons p rest ih =>
    by_cases h : (p.1 == k) = true
    · simp [aupdate, akeys, h]
    · simp only [aupdate, if_neg h]
      simp [akeys] at ih ⊢
      exact ih

theorem akeys_aerase (k : Bytes) (m : List (Bytes × Bytes)) :
    akeys (aerase k m) = (akeys m).erase k := by
  induction m with
  | nil => rfl
  | cons p rest ih =>
    by_cases h : (p.1 == k) = true
    · simp [aerase, akeys, h, List.erase_cons, eq_of_beq h]
    · have h' : p.1 ≠ k := by
        intro hc
        rw [hc] at h
        simp at h
      simp only [aerase, if_neg h, akeys, List.map_cons] at ih ⊢
      rw [ih, List.erase_cons]
      simp [h']

theorem alookup_eq_none_iff (k : Bytes) (m : List (Bytes × Bytes)) :
    alookup k m = none ↔ k ∉ akeys m := by
  induction m with
  | nil => simp [alookup, akeys]
  | cons p rest ih =>
    by_cases h : (p.1 == k) = true
    · simp [alookup, akeys, h, eq_of_beq h]
    · have h' : p.1 ≠ k := by
        intro hc
        rw [hc] at h
        simp at h
      simp [alookup, akeys, h, h', ih, Ne.symm h']

theorem alookup_isSome_iff (k : Bytes) (m : List (Bytes × Bytes)) :
    (alookup k m).isSome = true ↔ k ∈ akeys m := by
  induction m with
  | nil => simp [alookup, akeys]
  | cons p rest ih =>
    by_cases h : (p.1 == k) = true
    · simp [alookup, akeys, h, eq_of_beq h]
    · have h' : p.1 ≠ k := by
        intro hc
        rw [hc] at h
        simp at h
      simp [alookup, akeys, h, ih, Ne.symm h']

theorem alookup_aupdate_self (k v : Bytes) (m : List (Bytes × Bytes))
    (h : (alookup k m).isSome = true) :
    alookup k (aupdate k v m) = some v := by
  induction m with
  | nil => simp [alookup] at h
  | cons p rest ih =>
    by_cases hp : (p.1 == k) = true
    · simp [aupdate, alookup, hp]
    · simp only [aupdate, if_neg hp, alookup, hp]
      simp only [alookup, hp] at h
      exact ih h

theorem alookup_aupdate_ne {k k0 : Bytes} (h : k0 ≠ k) (v : Bytes)
    (m : List (Bytes × Bytes)) :
    alookup k0 (aupdate k v m) = alookup k0 m := by
  induction m with
  | nil => rfl
  | cons p rest ih =>
    by_cases hp : (p.1 == k) = true
    · have : (p.1 == k0) = false := by
        simp [eq_of_beq hp, Ne.symm h]
      simp [aupdate, alookup, hp, this]
    · simp [aupdate, alookup, hp, ih]

theorem alookup_aerase_ne {k k0 : Bytes} (h : k0 ≠ k)
    (m : List (Bytes × Bytes)) :
    alookup k0 (aerase k m) = alookup k0 m := by
  induction m with
  | nil => rfl
  | cons p rest ih =>
    by_cases hp : (p.1 == k) = true
    · have : (p.1 == k0) = false := by
        simp [eq_of_beq hp, Ne.symm h]
      simp [aerase, alookup, hp, this]
    · simp [aerase, alookup, hp, ih]

theorem alookup_aerase_self (k : Bytes) (m : List (Bytes × Bytes))
    (h : (akeys m).Nodup) : alookup k (aerase k m) = none := by
  induction m with
  | nil => rfl
  | cons p rest ih =>
    by_cases hp : (p.1 == k) = true
    · simp only [aerase, if_pos hp]
      rw [alookup_eq_none_iff]
      have := (List.nodup_cons.mp h).1
      rw [eq_of_beq hp] at this
      exact this
    · simp only [aerase, if_neg hp, alookup, hp]
      exact ih (List.nodup_cons.mp h).2

theorem alookup_eq_none_of_not_isSome {k : Bytes} {m : List (Bytes × Bytes)}
    (h : ¬(alookup k m).isSome = true) : alookup k m = none := by
  cases hc : alookup k m with
  | none => rfl
  | some x => rw [hc] at h; simp at h

/-- `put` keeps the key index duplicate-free. -/
theorem akeys_nodup_lruPut (k v : Bytes) (c : LRUCacheSegment)
    (h : (akeys c.lruMap).Nodup) : (akeys (lruPut k v c).lruMap).Nodup := by
  unfold lruPut
  by_cases hs : (alookup k c.lruMap).isSome = true
  · rw [if_pos hs]
    simpa [akeys_aupdate] using h
  · rw [if_neg hs]
    have hmem : k ∉ akeys c.lruMap :=
      (alookup_eq_none_iff _ _).mp (alookup_eq_none_of_not_isSome hs)
    by_cases hl : (k :: c.lruList).length > c.capacity
    · simp only [if_pos hl]
      rw [akeys_aerase]
      exact List.Nodup.erase _ (List.nodup_cons.mpr ⟨hmem, h⟩)
    · simp only [if_neg hl]
      exact List.nodup_cons.mpr ⟨hmem, h⟩

theorem aerase_cons_self (k v : Bytes) (m : List (Bytes × Bytes)) :
    aerase k ((k, v) :: m) = m := by
  simp [aerase]

theorem aerase_cons_ne {k t : Bytes} (h : k ≠ t) (v : Bytes)
    (m : List (Bytes × Bytes)) :
    aerase t ((k, v) :: m) = (k, v) :: aerase t m := by
  have hb : ((k, v).1 == t) = false := by
    simp [h]
  simp only [aerase, hb]
  simp

/-- Any binding readable from the key index after a `put(k, v)` is
either the fresh binding `(k, v)` or an unchanged old binding of some
other key (duplicate-free keys are needed for the eviction case). -/
theorem alookup_lruPut_sub (k v : Bytes) (c : LRUCacheSegment)
    (hn : (akeys c.lruMap).Nodup) (k2 w : Bytes)
    (h : alookup k2 (lruPut k v c).lruMap = some w) :
    (k2 = k ∧ w = v) ∨ (k2 ≠ k ∧ alookup k2 c.lruMap = some w) := by
  unfold lruPut at h
  by_cases hs : (alookup k c.lruMap).isSome = true
  · rw [if_pos hs] at h
    simp only at h
    by_cases hk : k2 = k
    · subst hk
      rw [alookup_aupdate_self _ v _ hs] at h
      exact Or.inl ⟨rfl, (Option.some.inj h).symm⟩
    · rw [alookup_aupdate_ne hk] at h
      exact Or.inr ⟨hk, h⟩
  · rw [if_neg hs] at h
    have hnone : alookup k c.lruMap = none := alookup_eq_none_of_not_isSome hs
    by_cases hl : (k :: c.lruList).length > c.capacity
    · simp only [if_pos hl] at h
      by_cases ht : (k :: c.lruList).getLast (List.cons_ne_nil _ _) = k
      · rw [ht, aerase_cons_self] at h
        by_cases hk : k2 = k
        · subst hk
          rw [hnone] at h
          cases h
        · exact Or.inr ⟨hk, h⟩
      · rw [aerase_cons_ne (fun hc => ht hc.symm)] at h
        by_cases hk : k2 = k
        · subst hk
          simp [alookup] at h
          exact Or.inl ⟨rfl, h.symm⟩
        · have hne : (k == k2) = false := by
            simp
            intro hc
            exact hk hc.symm
          simp only [alookup, hne] at h
          by_cases h2t : k2 = (k :: c.lruList).getLast (List.cons_ne_nil _ _)
          · rw [h2t] at h
            rw [alookup_aerase_self _ _ hn] at h
            cases h
          · rw [alookup_aerase_ne h2t] at h
            exact Or.inr ⟨hk, h⟩
    · simp only [if_neg hl] at h
      by_cases hk : k2 = k
      · subst hk
        simp [alookup] at h
        exact Or.inl ⟨rfl, h.symm⟩
      · have hne : (k == k2) = false := by
          simp
          intro hc
          exact hk hc.symm
        simp only [alookup, hne] at h
        exact Or.inr ⟨hk, h⟩

theorem lruGet_fst (k : Bytes) (c : LRUCacheSegment) :
    (lruGet k c).1 = alookup k c.lruMap := by
  unfold lruGet
  cases alookup k c.lruMap <;> rfl

theorem lruGet_lruMap (k : Bytes) (c : LRUCacheSegment) :
    (lruGet k c).2.lruMap = c.lruMap := by
  unfold lruGet
  cases alookup k c.lruMap <;> rfl

theorem lruRemove_lruMap (k : Bytes) (c : LRUCacheSegment) :
    (lruRemove k c).lruMap = if (alookup k c.lruMap).isSome = true
      then aerase k c.lruMap else c.lruMap := by
  unfold lruRemove
  by_cases hs : (alookup k c.lruMap).isSome = true
  · rw [if_pos hs, if_pos hs]
  · rw [if_neg hs, if_neg hs]

theorem akeys_nodup_lruRemove (k : Bytes) (c : LRUCacheSegment)
    (h : (akeys c.lruMap).Nodup) : (akeys (lruRemove k c).lruMap).Nodup := by
  rw [lruRemove_lruMap]
  by_cases hs : (alookup k c.lruMap).isSome = true
  · rw [if_pos hs, akeys_aerase]
    exact List.Nodup.erase _ h
  · rw [if_neg hs]
    exact h

theorem alookup_lruRemove_self (k : Bytes) (c : LRUCacheSegment)
    (hn : (akeys c.lruMap).Nodup) :
    alookup k (lruRemove k c).lruMap = none := by
  rw [lruRemove_lruMap]
  by_cases hs : (alookup k c.lruMap).isSome = true
  · rw [if_pos hs]
    exact alookup_aerase_self _ _ hn
  · rw [if_neg hs]
    exact alookup_eq_none_of_not_isSome hs

theorem alookup_lruRemove_ne {k k2 : Bytes} (h : k2 ≠ k) (c : LRUCacheSegment) :
    alookup k2 (lruRemove k c).lruMap = alookup k2 c.lruMap := by
  rw [lruRemove_lruMap]
  by_cases hs : (alookup k c.lruMap).isSome = true
  · rw [if_pos hs]
    exact alookup_aerase_ne h _
  · rw [if_neg hs]

/-! ## A shard (`BinControl`): cache plus log file -/

/-- The state of one shard: its LRU cache and its log file (record
level).  The `shared_mutex` of the source serializes writers, so each
operation is modelled as one atomic state transformation. -/
structure BinState where
  cache : LRUCacheSegment
  file : List Record
deriving DecidableEq

/-- A freshly created shard: empty cache of the given capacity, empty
log file. -/
def binInit (capacity : Nat) : BinState := ⟨lruInit capacity, []⟩

/-- `BinControl::insert` (persistent_hashmap.cpp, lines 7-69):
`cache.put(key, value)` first, then tombstone the previous live record
for the key in the file and append the fresh one. -/
def binInsert (k v : Bytes) (s : BinState) : BinState :=
  { cache := lruPut k v s.cache, file := insertFile k v s.file }

/-- `BinControl::get` (lines 71-136): consult the cache first; on a
miss scan the file and, on a file hit, `cache.put` the value before
returning it. -/
def binGet (k : Bytes) (s : BinState) : Option Bytes × BinState :=
  match lruGet k s.cache with
  | (some v, c1) => (some v, { s with cache := c1 })
  | (none, _) =>
    match fileGet k s.file with
    | some v => (some v, { s with cache := lruPut k v s.cache })
    | none => (none, s)

/-- `BinControl::erase` (lines 138-201): `cache.remove(key)`, then
tombstone the first live record for the key, reporting success. -/
def binErase (k : Bytes) (s : BinState) : Bool × BinState :=
  let p := eraseScan k s.file
  (p.1, { cache := lruRemove k s.cache, file := p.2 })

/-- `BinControl::compressFile` as a shard operation (compaction does
not touch the cache). -/
def binCompress (s : BinState) : BinState :=
  { s with file := compressFile s.file }

/-- Shard coherence: the file has at most one live record per key
(spec invariant 2), the cache's key index is duplicate-free (as
`std::unordered_map` guarantees by construction), and every cached
binding agrees with what a file scan would return (spec invariant 1). -/
def GoodBin (s : BinState) : Prop :=
  AtMostOneLive s.file
  ∧ (akeys s.cache.lruMap).Nodup
  ∧ ∀ k v, alookup k s.cache.lruMap = some v → fileGet k s.file = some v

theorem goodBin_binInit (capacity : Nat) : GoodBin (binInit capacity) := by
  refine ⟨fun k => ?_, ?_, fun k v h => ?_⟩
  · simp [binInit, liveFor]
  · simp [binInit, lruInit, akeys]
  · simp [binInit, lruInit, alookup] at h

/-- On a coherent shard, `get` answers exactly what the file scan
would answer: a cache hit never disagrees with the file. -/
theorem binGet_fst (k : Bytes) (s : BinState) (h : GoodBin s) :
    (binGet k s).1 = fileGet k s.file := by
  unfold binGet
  have hfst := lruGet_fst k s.cache
  cases hg : lruGet k s.cache with
  | mk o c1 =>
    cases o with
    | some v =>
      have : alookup k s.cache.lruMap = some v := by
        rw [← hfst, hg]
      exact (h.2.2 k v this).symm
    | none =>
      cases hf : fileGet k s.file <;> simp

theorem goodBin_binInsert (k v : Bytes) (s : BinState) (h : GoodBin s) :
    GoodBin (binInsert k v s) := by
  obtain ⟨hfile, hnodup, hcons⟩ := h
  refine ⟨atMostOneLive_insertFile k v s.file hfile,
    akeys_nodup_lruPut k v s.cache hnodup, fun k2 w hw => ?_⟩
  rcases alookup_lruPut_sub k v s.cache hnodup k2 w hw with ⟨hk, hv⟩ | ⟨hk, hold⟩
  · subst hk
    subst hv
    exact fileGet_insertFile_self k2 w s.file (hfile k2)
  · rw [show (binInsert k v s).file = insertFile k v s.file from rfl,
      fileGet_insertFile_ne hk]
    exact hcons k2 w hold

theorem goodBin_binGet (k : Bytes) (s : BinState) (h : GoodBin s) :
    GoodBin (binGet k s).2 := by
  obtain ⟨hfile, hnodup, hcons⟩ := h
  unfold binGet
  cases hg : lruGet k s.cache with
  | mk o c1 =>
    cases o with
    | some v =>
      have hmap : c1.lruMap = s.cache.lruMap := by
        have := lruGet_lruMap k s.cache
        rw [hg] at this
        exact this
      exact ⟨hfile, by rw [hmap]; exact hnodup,
        fun k2 w hw => hcons k2 w (by rw [← hmap]; exact hw)⟩
    | none =>
      cases hf : fileGet k s.file with
      | some v =>
        refine ⟨hfile, akeys_nodup_lruPut k v s.cache hnodup, fun k2 w hw => ?_⟩
        rcases alookup_lruPut_sub k v s.cache hnodup k2 w hw with ⟨hk, hv⟩ | ⟨_, hold⟩
        · subst hk
          subst hv
          exact hf
        · exact hcons k2 w hold
      | none => exact ⟨hfile, hnodup, hcons⟩

theorem goodBin_binErase (k : Bytes) (s : BinState) (h : GoodBin s) :
    GoodBin (binErase k s).2 := by
  obtain ⟨hfile, hnodup, hcons⟩ := h
  refine ⟨atMostOneLive_eraseScan k s.file hfile,
    akeys_nodup_lruRemove k s.cache hnodup, fun k2 w hw => ?_⟩
  by_cases hk : k2 = k
  · subst hk
    rw [show (binErase k2 s).2.cache = lruRemove k2 s.cache from rfl,
      alookup_lruRemove_self k2 s.cache hnodup] at hw
    cases hw
  · rw [show (binErase k s).2.cache = lruRemove k s.cache from rfl,
      alookup_lruRemove_ne hk] at hw
    rw [show (binErase k s).2.file = (eraseScan k s.file).2 from rfl,
      fileGet_eraseScan_ne hk]
    exact hcons k2 w hw

theorem goodBin_binCompress (s : BinState) (h : GoodBin s) :
    GoodBin (binCompress s) := by
  obtain ⟨hfile, hnodup, hcons⟩ := h
  refine ⟨atMostOneLive_compressFile s.file hfile, hnodup, fun k2 w hw => ?_⟩
  rw [show (binCompress s).file = compressFile s.file from rfl,
    fileGet_compressFile]
  exact hcons k2 w hw

/-! ## Operation sequences on a shard -/

/-- One shard operation: the three client operations plus the
compactor pass that the background GC can interleave at any point. -/
inductive Op where
  | ins (k v : Bytes)
  | read (k : Bytes)
  | del (k : Bytes)
  | gc
deriving DecidableEq

/-- Apply one operation to a shard.  `read` also transforms the state:
a file hit repopulates the cache. -/
def applyOp (s : BinState) : Op → BinState
  | .ins k v => binInsert k v s
  | .read k => (binGet k s).2
  | .del k => (binErase k s).2
  | .gc => binCompress s

/-- Run a sequence of shard operations. -/
def runOps (s : BinState) (ops : List Op) : BinState := ops.foldl applyOp s

/-- Spec-side step function for claim C1 (written from the spec's
words, to be compared with the code's behaviour): an `insert(k, v)`
makes the expected answer `some v`, an `erase(k)` makes it `none`, and
every other operation leaves it unchanged. -/
def lastWriteStep (k : Bytes) (acc : Option Bytes) : Op → Option Bytes
  | .ins k2 v => if k2 = k then some v else acc
  | .del k2 => if k2 = k then none else acc
  | _ => acc

/-- Spec-side description of C1: the value of the last `insert(k, ·)`
in the sequence, unless a later `erase(k)` intervened; `none` when
there was no such insert. -/
def specLastWrite (k : Bytes) (ops : List Op) : Option Bytes :=
  ops.foldl (lastWriteStep k) none

theorem goodBin_applyOp (s : BinState) (op : Op) (h : GoodBin s) :
    GoodBin (applyOp s op) := by
  cases op with
  | ins k v => exact goodBin_binInsert k v s h
  | read k => exact goodBin_binGet k s h
  | del k => exact goodBin_binErase k s h
  | gc => exact goodBin_binCompress s h

/-- Effect of one operation on what a file scan for `k` returns. -/
theorem fileGet_applyOp (s : BinState) (op : Op) (h : GoodBin s) (k : Bytes) :
    fileGet k (applyOp s op).file = lastWriteStep k (fileGet k s.file) op := by
  cases op with
  | ins k2 v =>
    by_cases hk : k2 = k
    · subst hk
      simp only [applyOp, binInsert, lastWriteStep, if_pos rfl]
      exact fileGet_insertFile_self k2 v s.file (h.1 k2)
    · simp only [applyOp, binInsert, lastWriteStep, if_neg hk]
      exact fileGet_insertFile_ne (fun hc => hk hc.symm) v s.file
  | read k2 =>
    have : (binGet k2 s).2.file = s.file := by
      unfold binGet
      cases lruGet k2 s.cache with
      | mk o c1 =>
        cases o with
        | some v => rfl
        | none => cases fileGet k2 s.file <;> rfl
    simp only [applyOp, lastWriteStep, this]
  | del k2 =>
    by_cases hk : k2 = k
    · subst hk
      simp only [applyOp, binErase, lastWriteStep, if_pos rfl]
      exact fileGet_eraseScan_self k2 s.file (h.1 k2)
    · simp only [applyOp, binErase, lastWriteStep, if_neg hk]
      exact fileGet_eraseScan_ne (fun hc => hk hc.symm) s.file
  | gc =>
    simp only [applyOp, binCompress, lastWriteStep]
    exact fileGet_compressFile k s.file

theorem goodBin_runOps (ops : List Op) (s : BinState) (h : GoodBin s) :
    GoodBin (runOps s ops) := by
  induction ops generalizing s with
  | nil => exact h
  | cons op rest ih =>
    rw [show runOps s (op :: rest) = runOps (applyOp s op) rest from rfl]
    exact ih _ (goodBin_applyOp s op h)

theorem fileGet_runOps (ops : List Op) (s : BinState) (h : GoodBin s)
    (k : Bytes) :
    fileGet k (runOps s ops).file = ops.foldl (lastWriteStep k) (fileGet k s.file) := by
  induction ops generalizing s with
  | nil => rfl
  | cons op rest ih =>
    rw [show runOps s (op :: rest) = runOps (applyOp s op) rest from rfl,
      show (op :: rest).foldl (lastWriteStep k) (fileGet k s.file)
        = rest.foldl (lastWriteStep k) (lastWriteStep k (fileGet k s.file) op)
        from rfl,
      ← fileGet_applyOp s op h k]
    exact ih _ (goodBin_applyOp s op h)

/-- C1: starting from a fresh shard, after any sequence of shard
operations, `get(k)` returns the value of the last `insert(k, v)`
unless a later `erase(k)` intervened, in which case it returns empty;
in particular a fresh `insert(key, value)` is visible to `get(key)`
until the key is overwritten or erased. -/
theorem get_returns_last_write (capacity : Nat) (ops : List Op) (k : Bytes) :
    (binGet k (runOps (binInit capacity) ops)).1 = specLastWrite k ops := by
  have hg : GoodBin (runOps (binInit capacity) ops) :=
    goodBin_runOps ops _ (goodBin_binInit capacity)
  rw [binGet_fst k _ hg,
    fileGet_runOps ops _ (goodBin_binInit capacity) k]
  rfl

/-- C8: `erase(key)` returns true iff a live record for the key was
found (and tombstoned); an immediately repeated `erase(key)` returns
false and leaves the shard file unchanged. -/
theorem erase_true_iff_live (k : Bytes) (s : BinState)
    (h : (liveFor k s.file).length ≤ 1) :
    ((binErase k s).1 = true ↔ ∃ r ∈ s.file, r.deleted = false ∧ r.key = k)
    ∧ (binErase k (binErase k s).2).1 = false
    ∧ (binErase k (binErase k s).2).2.file = (binErase k s).2.file := by
  have hlive : ∀ g : List Record,
      ((liveFor k g).isEmpty = false ↔ ∃ r ∈ g, r.deleted = false ∧ r.key = k) := by
    intro g
    rw [List.isEmpty_eq_false_iff_exists_mem]
    constructor
    · rintro ⟨r, hr⟩
      have := List.mem_filter.mp hr
      refine ⟨r, this.1, ?_, ?_⟩
      · have hb := (Bool.and_eq_true _ _).mp this.2
        simpa using hb.1
      · have hb := (Bool.and_eq_true _ _).mp this.2
        exact eq_of_beq hb.2
    · rintro ⟨r, hmem, hdel, hkey⟩
      exact ⟨r, List.mem_filter.mpr ⟨hmem, by simp [hdel, hkey]⟩⟩
  have htail : liveFor k (binErase k s).2.file = [] := by
    rw [show (binErase k s).2.file = (eraseScan k s.file).2 from rfl,
      liveFor_eraseScan]
    exact tail_of_length_le_one h
  have hsecond : eraseScan k (binErase k s).2.file
      = (false, (binErase k s).2.file) :=
    eraseScan_of_no_live k _ htail
  refine ⟨?_, ?_, ?_⟩
  · rw [show (binErase k s).1 = (eraseScan k s.file).1 from rfl, eraseScan_fst]
    rw [← hlive s.file]
    cases hi : (liveFor k s.file).isEmpty <;> simp [hi]
  · rw [show (binErase k (binErase k s).2).1
        = (eraseScan k (binErase k s).2.file).1 from rfl, hsecond]
  · rw [show (binErase k (binErase k s).2).2.file
        = (eraseScan k (binErase k s).2.file).2 from rfl, hsecond]

/-- Witness for C8 on a one-record shard: the first erase succeeds,
the second fails. -/
theorem erase_true_iff_live_witness :
    (binErase [1] ⟨lruInit 64, [⟨[1], [2], false⟩]⟩).1 = true
    ∧ (binErase [1] (binErase [1] ⟨lruInit 64, [⟨[1], [2], false⟩]⟩).2).1 = false := by
  have h := erase_true_iff_live [1] ⟨lruInit 64, [⟨[1], [2], false⟩]⟩ (by decide)
  exact ⟨h.1.mpr ⟨⟨[1], [2], false⟩, by simp, rfl, rfl⟩, h.2.1⟩

/-- C5: all shard-log mutations preserve the at-most-one-live-record
invariant; in particular the insert scan tombstones the live record it
finds for the key, so no live record for the key survives the scan. -/
theorem shard_ops_preserve_one_live (f : List Record) (hf : AtMostOneLive f) :
    (∀ k v, AtMostOneLive (insertFile k v f))
    ∧ (∀ k, AtMostOneLive (eraseScan k f).2)
    ∧ AtMostOneLive (compressFile f)
    ∧ ∀ k, ∀ r ∈ insertScan k f, r.key = k → r.deleted = true := by
  refine ⟨fun k v => atMostOneLive_insertFile k v f hf,
    fun k => atMostOneLive_eraseScan k f hf,
    atMostOneLive_compressFile f hf, fun k r hmem hkey => ?_⟩
  have hempty : liveFor k (insertScan k f) = [] := by
    rw [liveFor_insertScan]
    exact tail_of_length_le_one (hf k)
  have hnot := List.filter_eq_nil_iff.mp hempty r hmem
  by_contra hdel
  apply hnot
  simp [hkey, Bool.not_eq_true] at hdel ⊢
  simp [hdel]

/-- Witness for C5 at a concrete shard file. -/
theorem shard_ops_preserve_one_live_witness :
    (liveFor [5] (insertFile [1] [2] [⟨[1], [9], false⟩])).length ≤ 1 :=
  (shard_ops_preserve_one_live [⟨[1], [9], false⟩]
    (fun k => by
      have hle := List.length_filter_le
        (fun (r : Record) => !r.deleted && r.key == k) [⟨[1], [9], false⟩]
      simpa [liveFor] using hle)).1 [1] [2] [5]

theorem compressFile_filter_key (k : Bytes) (g : List Record) :
    (compressFile g).filter (fun r => r.key == k) = liveFor k g := by
  induction g with
  | nil => rfl
  | cons r rest ih =>
    by_cases hd : r.deleted
    · simp [compressFile, hd, liveFor_cons, ih]
    · by_cases hk : (r.key == k) = true
      · simp [compressFile, hd, liveFor_cons, hk, ih, List.filter_cons]
      · simp [compressFile, hd, liveFor_cons, hk, ih, List.filter_cons]

/-- C4: compaction keeps exactly the non-tombstoned records in their
original order; after `insert(k, v1); insert(k, v2); compact()` on a
shard whose file respects the one-live-record invariant for `k`, the
file holds exactly one record for `k`: value `v2`, not tombstoned. -/
theorem compressFile_spec :
    (∀ f, compressFile f = f.filter fun r => !r.deleted)
    ∧ ∀ f k v1 v2, (liveFor k f).length ≤ 1 →
        (compressFile (insertFile k v2 (insertFile k v1 f))).filter
          (fun r => r.key == k) = [⟨k, v2, false⟩] := by
  refine ⟨compressFile_eq_filter, fun f k v1 v2 h => ?_⟩
  have h1 : liveFor k (insertFile k v1 f) = [⟨k, v1, false⟩] := by
    rw [liveFor_insertFile_self, tail_of_length_le_one h]
    rfl
  rw [compressFile_filter_key, liveFor_insertFile_self, h1]
  rfl

/-- Witness for C4 at a concrete shard file. -/
theorem compressFile_spec_witness :
    (compressFile (insertFile [1] [3] (insertFile [1] [2] []))).filter
      (fun r => r.key == [1]) = [⟨[1], [3], false⟩] :=
  compressFile_spec.2 [] [1] [2] [3] (by decide)

/-! ## LRU reachable-state invariant (C7) -/

theorem lruPut_present {k : Bytes} (v : Bytes) {c : LRUCacheSegment}
    (hs : (alookup k c.lruMap).isSome = true) :
    lruPut k v c
      = { c with lruMap := aupdate k v c.lruMap, lruList := k :: c.lruList.erase k } := by
  unfold lruPut
  rw [if_pos hs]

theorem lruPut_absent_small {k : Bytes} (v : Bytes) {c : LRUCacheSegment}
    (hs : ¬(alookup k c.lruMap).isSome = true)
    (hl : ¬(k :: c.lruList).length > c.capacity) :
    lruPut k v c
      = { c with lruList := k :: c.lruList, lruMap := (k, v) :: c.lruMap } := by
  unfold lruPut
  rw [if_neg hs]
  simp only [if_neg hl]

theorem lruPut_absent_evict {k : Bytes} (v : Bytes) {c : LRUCacheSegment}
    (hs : ¬(alookup k c.lruMap).isSome = true)
    (hl : (k :: c.lruList).length > c.capacity) :
    lruPut k v c
      = { c with lruList := (k :: c.lruList).dropLast, lruMap := aerase ((k :: c.lruList).getLast (List.cons_ne_nil _ _)) ((k, v) :: c.lruMap) } := by
  unfold lruPut
  rw [if_neg hs]
  simp only [if_pos hl]

/-- Members of `dropLast` of a duplicate-free list are exactly the
members other than the last element. -/
theorem mem_dropLast_iff {l : List Bytes} (h : l ≠ []) (hn : l.Nodup)
    (x : Bytes) : x ∈ l.dropLast ↔ x ∈ l ∧ x ≠ l.getLast h := by
  have hdecomp := List.dropLast_append_getLast h
  have hn' : (l.dropLast ++ [l.getLast h]).Nodup := by
    rw [hdecomp]
    exact hn
  rw [List.nodup_append] at hn'
  constructor
  · intro hx
    refine ⟨by rw [← hdecomp]; exact List.mem_append_left _ hx, fun hc => ?_⟩
    exact hn'.2.2 hx (by simp [hc])
  · rintro ⟨hmem, hne⟩
    rw [← hdecomp] at hmem
    rcases List.mem_append.mp hmem with h1 | h1
    · exact h1
    · exact absurd (by simpa using h1) hne

/-- The inductive invariant of one cache segment: stable capacity,
duplicate-free order list and key index, matching membership between
them, and the size bound. -/
def LRUInv (K : Nat) (c : LRUCacheSegment) : Prop :=
  c.capacity = K
  ∧ c.lruList.Nodup
  ∧ (akeys c.lruMap).Nodup
  ∧ (∀ x, x ∈ c.lruList ↔ x ∈ akeys c.lruMap)
  ∧ c.lruList.length ≤ K

theorem lruInv_lruPut (K : Nat) (k v : Bytes) (c : LRUCacheSegment)
    (h : LRUInv K c) : LRUInv K (lruPut k v c) := by
  obtain ⟨hcap, hln, hmn, hmem, hlen⟩ := h
  by_cases hs : (alookup k c.lruMap).isSome = true
  · have hkin : k ∈ c.lruList := (hmem k).mpr ((alookup_isSome_iff _ _).mp hs)
    rw [lruPut_present v hs]
    refine ⟨hcap, ?_, ?_, ?_, ?_⟩
    · show (k :: c.lruList.erase k).Nodup
      exact List.nodup_cons.mpr
        ⟨fun hc => (((hln.mem_erase_iff).mp hc).1 rfl), hln.erase k⟩
    · show (akeys (aupdate k v c.lruMap)).Nodup
      rw [akeys_aupdate]
      exact hmn
    · intro x
      show x ∈ k :: c.lruList.erase k ↔ x ∈ akeys (aupdate k v c.lruMap)
      rw [akeys_aupdate]
      constructor
      · intro hx
        rcases List.mem_cons.mp hx with hx | hx
        · subst hx
          exact (hmem x).mp hkin
        · exact (hmem x).mp ((hln.mem_erase_iff).mp hx).2
      · intro hx
        by_cases hxk : x = k
        · subst hxk
          exact List.mem_cons_self _ _
        · exact List.mem_cons_of_mem _
            ((hln.mem_erase_iff).mpr ⟨hxk, (hmem x).mpr hx⟩)
    · show (k :: c.lruList.erase k).length ≤ K
      have hpos : 0 < c.lruList.length := List.length_pos_of_mem hkin
      rw [List.length_cons, List.length_erase_of_mem hkin]
      omega
  · have hkout : k ∉ c.lruList := fun hc =>
      hs ((alookup_isSome_iff _ _).mpr ((hmem k).mp hc))
    by_cases hl : (k :: c.lruList).length > c.capacity
    · rw [lruPut_absent_evict v hs hl]
      cases hlist : c.lruList with
      | nil =>
        have hempty : ∀ x, x ∉ akeys c.lruMap := by
          intro x hx
          have hmm := (hmem x).mpr hx
          rw [hlist] at hmm
          cases hmm
        refine ⟨hcap, ?_, ?_, ?_, ?_⟩
        · show ([] : List Bytes).Nodup
          exact List.nodup_nil
        · show (akeys (aerase k ((k, v) :: c.lruMap))).Nodup
          rw [aerase_cons_self]
          exact hmn
        · intro x
          show x ∈ ([] : List Bytes) ↔ x ∈ akeys (aerase k ((k, v) :: c.lruMap))
          rw [aerase_cons_self]
          exact ⟨fun hx => absurd hx (List.not_mem_nil x),
            fun hx => absurd hx (hempty x)⟩
        · show ([] : List Bytes).length ≤ K
          simp
      | cons b l' =>
        rw [← hlist]
        have hne : c.lruList ≠ [] := by
          rw [hlist]
          exact List.cons_ne_nil _ _
        have hglast : (k :: c.lruList).getLast (List.cons_ne_nil _ _)
            = c.lruList.getLast hne := List.getLast_cons hne
        have htin : c.lruList.getLast hne ∈ c.lruList := List.getLast_mem hne
        have htk : c.lruList.getLast hne ≠ k := fun hc => hkout (hc ▸ htin)
        have hdrop : (k :: c.lruList).dropLast = k :: c.lruList.dropLast := by
          rw [hlist]
          rfl
        rw [hglast, hdrop, aerase_cons_ne (fun hc => htk hc.symm)]
        refine ⟨hcap, ?_, ?_, ?_, ?_⟩
        · show (k :: c.lruList.dropLast).Nodup
          refine List.nodup_cons.mpr
            ⟨fun hc => ?_, hln.sublist (List.dropLast_sublist _)⟩
          exact hkout ((List.dropLast_sublist _).mem hc)
        · show (akeys ((k, v) :: aerase (c.lruList.getLast hne) c.lruMap)).Nodup
          rw [show akeys ((k, v) :: aerase (c.lruList.getLast hne) c.lruMap)
              = k :: akeys (aerase (c.lruList.getLast hne) c.lruMap) from rfl,
            akeys_aerase]
          refine List.nodup_cons.mpr ⟨fun hc => ?_, hmn.erase _⟩
          have hmem2 := (hmn.mem_erase_iff).mp hc
          exact hs ((alookup_isSome_iff _ _).mpr hmem2.2)
        · intro x
          show x ∈ k :: c.lruList.dropLast
            ↔ x ∈ akeys ((k, v) :: aerase (c.lruList.getLast hne) c.lruMap)
          rw [show akeys ((k, v) :: aerase (c.lruList.getLast hne) c.lruMap)
              = k :: akeys (aerase (c.lruList.getLast hne) c.lruMap) from rfl,
            akeys_aerase]
          by_cases hxk : x = k
          · subst hxk
            simp
          · constructor
            · intro hx
              rcases List.mem_cons.mp hx with hx | hx
              · exact absurd hx hxk
              · have hd := (mem_dropLast_iff hne hln x).mp hx
                exact List.mem_cons_of_mem _
                  ((hmn.mem_erase_iff).mpr ⟨hd.2, (hmem x).mp hd.1⟩)
            · intro hx
              rcases List.mem_cons.mp hx with hx | hx
              · exact absurd hx hxk
              · have hd := (hmn.mem_erase_iff).mp hx
                exact List.mem_cons_of_mem _
                  ((mem_dropLast_iff hne hln x).mpr ⟨(hmem x).mpr hd.2, hd.1⟩)
        · show (k :: c.lruList.dropLast).length ≤ K
          rw [List.length_cons, List.length_dropLast]
          have hpos : 0 < c.lruList.length := by
            rw [hlist]
            simp
          omega
    · rw [lruPut_absent_small v hs hl]
      refine ⟨hcap, ?_, ?_, ?_, ?_⟩
      · show (k :: c.lruList).Nodup
        exact List.nodup_cons.mpr ⟨hkout, hln⟩
      · show (akeys ((k, v) :: c.lruMap)).Nodup
        refine List.nodup_cons.mpr ⟨fun hc => ?_, hmn⟩
        exact hs ((alookup_isSome_iff _ _).mpr hc)
      · intro x
        show x ∈ k :: c.lruList ↔ x ∈ akeys ((k, v) :: c.lruMap)
        rw [show akeys ((k, v) :: c.lruMap) = k :: akeys c.lruMap from rfl]
        constructor
        · intro hx
          rcases List.mem_cons.mp hx with hx | hx
          · exact hx ▸ List.mem_cons_self _ _
          · exact List.mem_cons_of_mem _ ((hmem x).mp hx)
        · intro hx
          rcases List.mem_cons.mp hx with hx | hx
          · exact hx ▸ List.mem_cons_self _ _
          · exact List.mem_cons_of_mem _ ((hmem x).mpr hx)
      · show (k :: c.lruList).length ≤ K
        rw [hcap] at hl
        simp only [List.length_cons] at hl ⊢
        omega

theorem lruInv_lruGet (K : Nat) (k : Bytes) (c : LRUCacheSegment)
    (h : LRUInv K c) : LRUInv K (lruGet k c).2 := by
  obtain ⟨hcap, hln, hmn, hmem, hlen⟩ := h
  unfold lruGet
  cases ha : alookup k c.lruMap with
  | none => exact ⟨hcap, hln, hmn, hmem, hlen⟩
  | some v =>
    have hkin : k ∈ c.lruList :=
      (hmem k).mpr ((alookup_isSome_iff _ _).mp (by rw [ha]; rfl))
    refine ⟨hcap, ?_, hmn, ?_, ?_⟩
    · show (k :: c.lruList.erase k).Nodup
      exact List.nodup_cons.mpr
        ⟨fun hc => (((hln.mem_erase_iff).mp hc).1 rfl), hln.erase k⟩
    · intro x
      show x ∈ k :: c.lruList.erase k ↔ x ∈ akeys c.lruMap
      constructor
      · intro hx
        rcases List.mem_cons.mp hx with hx | hx
        · subst hx
          exact (hmem x).mp hkin
        · exact (hmem x).mp ((hln.mem_erase_iff).mp hx).2
      · intro hx
        by_cases hxk : x = k
        · subst hxk
          exact List.mem_cons_self _ _
        · exact List.mem_cons_of_mem _
            ((hln.mem_erase_iff).mpr ⟨hxk, (hmem x).mpr hx⟩)
    · show (k :: c.lruList.erase k).length ≤ K
      have hpos : 0 < c.lruList.length := List.length_pos_of_mem hkin
      rw [List.length_cons, List.length_erase_of_mem hkin]
      omega

theorem lruInv_lruRemove (K : Nat) (k : Bytes) (c : LRUCacheSegment)
    (h : LRUInv K c) : LRUInv K (lruRemove k c) := by
  obtain ⟨hcap, hln, hmn, hmem, hlen⟩ := h
  unfold lruRemove
  by_cases hs : (alookup k c.lruMap).isSome = true
  · rw [if_pos hs]
    refine ⟨hcap, hln.erase k, ?_, ?_, ?_⟩
    · show (akeys (aerase k c.lruMap)).Nodup
      rw [akeys_aerase]
      exact hmn.erase k
    · intro x
      show x ∈ c.lruList.erase k ↔ x ∈ akeys (aerase k c.lruMap)
      rw [akeys_aerase, hln.mem_erase_iff, hmn.mem_erase_iff, hmem x]
    · show (c.lruList.erase k).length ≤ K
      calc (c.lruList.erase k).length ≤ c.lruList.length :=
            List.length_erase_le _ _
        _ ≤ K := hlen
  · rw [if_neg hs]
    exact ⟨hcap, hln, hmn, hmem, hlen⟩

/-- Reachable cache-segment states: freshly constructed with capacity
`K`, then closed under `put`, `get`, and `remove`. -/
inductive LRUReachable (K : Nat) : LRUCacheSegment → Prop where
  | init : LRUReachable K (lruInit K)
  | put (k v : Bytes) {c : LRUCacheSegment} :
      LRUReachable K c → LRUReachable K (lruPut k v c)
  | get (k : Bytes) {c : LRUCacheSegment} :
      LRUReachable K c → LRUReachable K (lruGet k c).2
  | rem (k : Bytes) {c : LRUCacheSegment} :
      LRUReachable K c → LRUReachable K (lruRemove k c)

theorem lruInv_of_reachable {K : Nat} {c : LRUCacheSegment}
    (h : LRUReachable K c) : LRUInv K c := by
  induction h with
  | init =>
    exact ⟨rfl, List.nodup_nil, List.nodup_nil,
      fun x => by simp [lruInit, akeys], by simp [lruInit]⟩
  | put k v _ ih => exact lruInv_lruPut K k v _ ih
  | get k _ ih => exact lruInv_lruGet K k _ ih
  | rem k _ ih => exact lruInv_lruRemove K k _ ih

/-- C7: in every reachable cache-segment state the number of cached
entries never exceeds `K`, and the order list and the key index hold
exactly the same keys; with `K > 0`, `put(k, v)` leaves `k` bound to
`v` at the head of the order list (overwriting a present key,
inserting an absent one) within the bound; and a `put` of an absent
key into a full segment evicts the tail key from both structures. -/
theorem lru_reachable_invariant (K : Nat) (c : LRUCacheSegment)
    (h : LRUReachable K c) :
    c.lruList.length ≤ K
    ∧ (∀ x, x ∈ c.lruList ↔ x ∈ akeys c.lruMap)
    ∧ (0 < K → ∀ k v, alookup k (lruPut k v c).lruMap = some v
        ∧ (lruPut k v c).lruList.head? = some k
        ∧ (lruPut k v c).lruList.length ≤ K)
    ∧ (∀ k v t, alookup k c.lruMap = none → c.lruList.length = K →
        c.lruList.getLast? = some t →
        t ∉ (lruPut k v c).lruList ∧ alookup t (lruPut k v c).lruMap = none) := by
  obtain ⟨hcap, hln, hmn, hmem, hlen⟩ := lruInv_of_reachable h
  refine ⟨hlen, hmem, fun hK k v => ?_, fun k v t hnone hfull hlast => ?_⟩
  · have hbound := (lruInv_lruPut K k v c
      ⟨hcap, hln, hmn, hmem, hlen⟩).2.2.2.2
    by_cases hs : (alookup k c.lruMap).isSome = true
    · rw [lruPut_present v hs]
      exact ⟨alookup_aupdate_self k v _ hs, rfl,
        by rw [← lruPut_present v hs]; exact hbound⟩
    · by_cases hl : (k :: c.lruList).length > c.capacity
      · cases hlist : c.lruList with
        | nil =>
          rw [hlist] at hl
          rw [hcap] at hl
          simp at hl
          omega
        | cons b l' =>
          have hne : c.lruList ≠ [] := by
            rw [hlist]
            exact List.cons_ne_nil _ _
          have hkout : k ∉ c.lruList := fun hc =>
            hs ((alookup_isSome_iff _ _).mpr ((hmem k).mp hc))
          have htin : c.lruList.getLast hne ∈ c.lruList := List.getLast_mem hne
          have htk : c.lruList.getLast hne ≠ k := fun hc => hkout (hc ▸ htin)
          rw [lruPut_absent_evict v hs hl]
          have hglast : (k :: c.lruList).getLast (List.cons_ne_nil _ _)
              = c.lruList.getLast hne := List.getLast_cons hne
          have hdrop : (k :: c.lruList).dropLast = k :: c.lruList.dropLast := by
            rw [hlist]
            rfl
          refine ⟨?_, ?_, ?_⟩
          · show alookup k (aerase ((k :: c.lruList).getLast (List.cons_ne_nil _ _))
              ((k, v) :: c.lruMap)) = some v
            rw [hglast, aerase_cons_ne (fun hc => htk hc.symm)]
            simp [alookup]
          · show ((k :: c.lruList).dropLast).head? = some k
            rw [hdrop]
            rfl
          · rw [← lruPut_absent_evict v hs hl]
            exact hbound
      · rw [lruPut_absent_small v hs hl]
        refine ⟨by simp [alookup], rfl, ?_⟩
        rw [← lruPut_absent_small v hs hl]
        exact hbound
  · have hs : ¬(alookup k c.lruMap).isSome = true := by
      rw [hnone]
      simp
    have hne : c.lruList ≠ [] := by
      intro hc
      rw [hc] at hlast
      cases hlast
    have ht : c.lruList.getLast hne = t := by
      have := List.getLast?_eq_getLast c.lruList hne
      rw [this] at hlast
      exact Option.some.inj hlast
    have hkout : k ∉ c.lruList := fun hc =>
      hs ((alookup_isSome_iff _ _).mpr ((hmem k).mp hc))
    have htin : t ∈ c.lruList := ht ▸ List.getLast_mem hne
    have htk : t ≠ k := fun hc => hkout (hc ▸ htin)
    have hl : (k :: c.lruList).length > c.capacity := by
      rw [hcap]
      simp only [List.length_cons, hfull]
      omega
    rw [lruPut_absent_evict v hs hl]
    have hglast : (k :: c.lruList).getLast (List.cons_ne_nil _ _) = t := by
      rw [List.getLast_cons hne]
      exact ht
    have hdrop : (k :: c.lruList).dropLast = k :: c.lruList.dropLast := by
      cases hlist : c.lruList with
      | nil => exact absurd hlist hne
      | cons b l' => rfl
    constructor
    · show t ∉ ((k :: c.lruList).dropLast)
      rw [hdrop]
      intro hc
      rcases List.mem_cons.mp hc with hc | hc
      · exact htk hc
      · have hd := (mem_dropLast_iff hne hln t).mp hc
        exact hd.2 ht.symm
    · show alookup t (aerase ((k :: c.lruList).getLast (List.cons_ne_nil _ _))
        ((k, v) :: c.lruMap)) = none
      rw [hglast, aerase_cons_ne (fun hc => htk hc.symm)]
      have hkt : (k == t) = false := by
        simp
        exact fun hc => htk hc.symm
      simp only [alookup, hkt]
      simp only [Bool.false_eq_true, if_false]
      exact alookup_aerase_self t c.lruMap hmn

/-- Witness for C7: a fresh segment of capacity 2 and one `put` on it. -/
theorem lru_reachable_invariant_witness :
    (lruInit 2).lruList.length ≤ 2
    ∧ alookup [7] (lruPut [7] [8] (lruInit 2)).lruMap = some [8] := by
  have h := lru_reachable_invariant 2 (lruInit 2) LRUReachable.init
  exact ⟨h.1, (h.2.2.1 (by decide) [7] [8]).1⟩

/-! ## Sharded map (`PersistentHashMap`) and store facade -/

/-- The sharded map: `num_bins` shards addressed by hashing the key.
`std::hash<std::string>` is an implementation-defined stable hash into
`size_t`; it is modelled as a function parameter `H : Bytes → Nat`
supplied to the operations. -/
structure PersistentHashMap where
  num_bins : Nat
  bins : List BinState
deriving DecidableEq

/-- A freshly created map (`INITIALIZATION_MODE::CREATE`): `num_bins`
shards, each with an empty log file and an empty cache of the given
capacity (`LRU_CACHE_CAPACITY`, default 64). -/
def phmInit (capacity num_bins : Nat) : PersistentHashMap :=
  ⟨num_bins, List.replicate num_bins (binInit capacity)⟩

/-- `PersistentHashMap::hash` (persistent_hashmap.cpp, lines 358-360):
`std::hash<std::string>{}(key) % num_bins`. -/
def phmHash (H : Bytes → Nat) (m : PersistentHashMap) (key : Bytes) : Nat :=
  H key % m.num_bins

/-- `PersistentHashMap::insert` (lines 362-365): hash the key and
delegate to the addressed shard. -/
def phmInsert (H : Bytes → Nat) (k v : Bytes) (m : PersistentHashMap) :
    PersistentHashMap :=
  match m.bins[phmHash H m k]? with
  | some b => { m with bins := m.bins.set (phmHash H m k) (binInsert k v b) }
  | none => m

/-- `PersistentHashMap::get` (lines 367-370). -/
def phmGet (H : Bytes → Nat) (k : Bytes) (m : PersistentHashMap) :
    Option Bytes × PersistentHashMap :=
  match m.bins[phmHash H m k]? with
  | some b =>
    ((binGet k b).1, { m with bins := m.bins.set (phmHash H m k) (binGet k b).2 })
  | none => (none, m)

/-- `PersistentHashMap::erase` (lines 372-375). -/
def phmErase (H : Bytes → Nat) (k : Bytes) (m : PersistentHashMap) :
    Bool × PersistentHashMap :=
  match m.bins[phmHash H m k]? with
  | some b =>
    ((binErase k b).1, { m with bins := m.bins.set (phmHash H m k) (binErase k b).2 })
  | none => (false, m)

/-- `StorageEngine` (storage_engine.cpp) is a pImpl passthrough: its
`insert`, `get`, and `erase` call the wrapped `PersistentHashMap`
directly, so the two share one state type. -/
abbrev StorageEngine := PersistentHashMap

/-- C10: with `num_bins > 0`, the shard index returned by `hash` is
always in range, so `insert`, `get`, and `erase` address a real
element of the shard array; equal keys always map to the same shard
within a process. -/
theorem phmHash_in_range (H : Bytes → Nat) (m : PersistentHashMap)
    (hn : 0 < m.num_bins) (hb : m.bins.length = m.num_bins) (key : Bytes) :
    phmHash H m key < m.num_bins
    ∧ (m.bins[phmHash H m key]?).isSome = true
    ∧ ∀ key2, key2 = key → phmHash H m key2 = phmHash H m key := by
  have hlt : phmHash H m key < m.num_bins := Nat.mod_lt _ hn
  refine ⟨hlt, ?_, fun key2 h2 => by rw [h2]⟩
  have hidx : phmHash H m key < m.bins.length := by
    rw [hb]
    exact hlt
  rw [List.getElem?_eq_getElem hidx]
  rfl

/-- Witness for C10 at the server's configuration (512 shards). -/
theorem phmHash_in_range_witness :
    phmHash (fun _ => 0) (phmInit 64 512) [7] < 512
    ∧ ((phmInit 64 512).bins[phmHash (fun _ => 0) (phmInit 64 512) [7]]?).isSome = true := by
  have hlen : (phmInit 64 512).bins.length = (phmInit 64 512).num_bins := by
    show (List.replicate 512 (binInit 64)).length = 512
    exact List.length_replicate 512 _
  have h := phmHash_in_range (fun _ => 0) (phmInit 64 512) (by decide) hlen [7]
  exact ⟨h.1, h.2.1⟩

/-! ## Recovery (`BinControl::binCheck`), byte level -/

/-- The unsigned value of the four little-endian bytes at `pos`
(out-of-range positions read as 0; `binCheckLoop` checks the bounds
before relying on the value). -/
def readNat32 (bytes : Bytes) (pos : Nat) : Nat :=
  bytes.getD pos 0 + 256 * bytes.getD (pos + 1) 0
    + 256 ^ 2 * bytes.getD (pos + 2) 0 + 256 ^ 3 * bytes.getD (pos + 3) 0

/-- The signed `int` obtained by `file.read(..., sizeof(int))`: the
two's-complement interpretation of the four bytes at `pos`. -/
def readInt32 (bytes : Bytes) (pos : Nat) : Int :=
  if readNat32 bytes pos < 2 ^ 31 then (readNat32 bytes pos : Int)
  else (readNat32 bytes pos : Int) - 2 ^ 32

/-- The scan loop of `BinControl::binCheck` (persistent_hashmap.cpp,
lines 284-307): starting at `pos`, a record is accepted iff its 9
header bytes are all present, `key_len ≥ 0`, `value_len ≥ 0`, and its
footprint fits within the file size; the loop returns the header
offset of the first rejected record, where the file is truncated. -/
def binCheckLoop (bytes : Bytes) (pos : Nat) : Nat :=
  if pos + 9 > bytes.length then pos
  else if readInt32 bytes pos < 0 ∨ readInt32 bytes (pos + 4) < 0 then pos
  else if pos + 9 + (readInt32 bytes pos).toNat
      + (readInt32 bytes (pos + 4)).toNat > bytes.length then pos
  else binCheckLoop bytes
    (pos + 9 + (readInt32 bytes pos).toNat + (readInt32 bytes (pos + 4)).toNat)
termination_by bytes.length - pos
decreasing_by omega

/-- `BinControl::binCheck` (lines 271-310): truncate the file at the
offset found by the scan. -/
def binCheckFile (bytes : Bytes) : Bytes := bytes.take (binCheckLoop bytes 0)

/-- A record parser over raw bytes: succeeds iff the byte string is
exactly a concatenation of records, each with its full 9-byte header,
non-negative lengths, and a complete footprint — i.e. a well-formed
prefix-concatenation of records with no partial trailing record. -/
def parseRecords (bytes : Bytes) : Bool :=
  if bytes.isEmpty then true
  else if bytes.length < 9 then false
  else if readInt32 bytes 0 < 0 ∨ readInt32 bytes 4 < 0 then false
  else if 9 + (readInt32 bytes 0).toNat + (readInt32 bytes 4).toNat
      > bytes.length then false
  else parseRecords
    (bytes.drop (9 + (readInt32 bytes 0).toNat + (readInt32 bytes 4).toNat))
termination_by bytes.length
decreasing_by
  simp only [List.length_drop]
  omega

theorem parseRecords_nil : parseRecords [] = true := by
  rw [parseRecords]
  rfl

theorem binCheckLoop_ge (bytes : Bytes) :
    ∀ n pos, bytes.length - pos ≤ n → pos ≤ binCheckLoop bytes pos := by
  intro n
  induction n with
  | zero =>
    intro pos hpos
    rw [binCheckLoop, if_pos (by omega)]
  | succ n ih =>
    intro pos hpos
    rw [binCheckLoop]
    by_cases h9 : pos + 9 > bytes.length
    · rw [if_pos h9]
    · rw [if_neg h9]
      by_cases hneg : readInt32 bytes pos < 0 ∨ readInt32 bytes (pos + 4) < 0
      · rw [if_pos hneg]
      · rw [if_neg hneg]
        by_cases hfit : pos + 9 + (readInt32 bytes pos).toNat
            + (readInt32 bytes (pos + 4)).toNat > bytes.length
        · rw [if_pos hfit]
        · rw [if_neg hfit]
          have := ih (pos + 9 + (readInt32 bytes pos).toNat
            + (readInt32 bytes (pos + 4)).toNat) (by omega)
          omega

theorem binCheckLoop_le (bytes : Bytes) :
    ∀ n pos, bytes.length - pos ≤ n → pos ≤ bytes.length →
      binCheckLoop bytes pos ≤ bytes.length := by
  intro n
  induction n with
  | zero =>
    intro pos hpos hle
    rw [binCheckLoop, if_pos (by omega)]
    exact hle
  | succ n ih =>
    intro pos hpos hle
    rw [binCheckLoop]
    by_cases h9 : pos + 9 > bytes.length
    · rw [if_pos h9]
      exact hle
    · rw [if_neg h9]
      by_cases hneg : readInt32 bytes pos < 0 ∨ readInt32 bytes (pos + 4) < 0
      · rw [if_pos hneg]
        exact hle
      · rw [if_neg hneg]
        by_cases hfit : pos + 9 + (readInt32 bytes pos).toNat
            + (readInt32 bytes (pos + 4)).toNat > bytes.length
        · rw [if_pos hfit]
          exact hle
        · rw [if_neg hfit]
          exact ih _ (by omega) (by omega)

theorem getD_take_drop (bytes : Bytes) (e pos i : Nat) (h : pos + i < e)
    (_he : e ≤ bytes.length) :
    ((bytes.take e).drop pos).getD i 0 = bytes.getD (pos + i) 0 := by
  rw [List.getD_eq_getElem?_getD, List.getD_eq_getElem?_getD,
    List.getElem?_drop, List.getElem?_take_of_lt h]

theorem readNat32_take_drop (bytes : Bytes) (e pos off : Nat)
    (h : pos + off + 4 ≤ e) (he : e ≤ bytes.length) :
    readNat32 ((bytes.take e).drop pos) off = readNat32 bytes (pos + off) := by
  unfold readNat32
  rw [getD_take_drop bytes e pos off (by omega) he,
    getD_take_drop bytes e pos (off + 1) (by omega) he,
    getD_take_drop bytes e pos (off + 2) (by omega) he,
    getD_take_drop bytes e pos (off + 3) (by omega) he]
  have h1 : pos + (off + 1) = pos + off + 1 := by omega
  have h2 : pos + (off + 2) = pos + off + 2 := by omega
  have h3 : pos + (off + 3) = pos + off + 3 := by omega
  rw [h1, h2, h3]

theorem readInt32_take_drop (bytes : Bytes) (e pos off : Nat)
    (h : pos + off + 4 ≤ e) (he : e ≤ bytes.length) :
    readInt32 ((bytes.take e).drop pos) off = readInt32 bytes (pos + off) := by
  unfold readInt32
  rw [readNat32_take_drop bytes e pos off h he]

/-- The segment accepted by the recovery scan parses cleanly. -/
theorem parseRecords_binCheckLoop (bytes : Bytes) :
    ∀ n pos, bytes.length - pos ≤ n → pos ≤ bytes.length →
      parseRecords ((bytes.take (binCheckLoop bytes pos)).drop pos) = true := by
  intro n
  induction n with
  | zero =>
    intro pos hpos hle
    rw [binCheckLoop, if_pos (by omega)]
    rw [List.drop_eq_nil_of_le (by rw [List.length_take]; omega)]
    exact parseRecords_nil
  | succ n ih =>
    intro pos hpos hle
    by_cases h9 : pos + 9 > bytes.length
    · rw [binCheckLoop, if_pos h9]
      rw [List.drop_eq_nil_of_le (by rw [List.length_take]; omega)]
      exact parseRecords_nil
    · by_cases hneg : readInt32 bytes pos < 0 ∨ readInt32 bytes (pos + 4) < 0
      · rw [binCheckLoop, if_neg h9, if_pos hneg]
        rw [List.drop_eq_nil_of_le (by rw [List.length_take]; omega)]
        exact parseRecords_nil
      · by_cases hfit : pos + 9 + (readInt32 bytes pos).toNat
            + (readInt32 bytes (pos + 4)).toNat > bytes.length
        · rw [binCheckLoop, if_neg h9, if_neg hneg, if_pos hfit]
          rw [List.drop_eq_nil_of_le (by rw [List.length_take]; omega)]
          exact parseRecords_nil
        · have hstep : binCheckLoop bytes pos = binCheckLoop bytes
              (pos + 9 + (readInt32 bytes pos).toNat
                + (readInt32 bytes (pos + 4)).toNat) := by
            rw [binCheckLoop, if_neg h9, if_neg hneg, if_neg hfit]
          set pos1 := pos + 9 + (readInt32 bytes pos).toNat
            + (readInt32 bytes (pos + 4)).toNat with hpos1
          have hge1 : pos1 ≤ binCheckLoop bytes pos1 :=
            binCheckLoop_ge bytes (bytes.length - pos1) pos1 le_rfl
          have hle1 : binCheckLoop bytes pos1 ≤ bytes.length :=
            binCheckLoop_le bytes (bytes.length - pos1) pos1 le_rfl (by omega)
          set e := binCheckLoop bytes pos1
          have hseglen : ((bytes.take e).drop pos).length = e - pos := by
            rw [List.length_drop, List.length_take]
            omega
          rw [hstep]
          rw [parseRecords]
          have hnotempty : ((bytes.take e).drop pos).isEmpty = false := by
            cases hseg : (bytes.take e).drop pos with
            | nil =>
              rw [hseg] at hseglen
              simp at hseglen
              omega
            | cons a t => rfl
          rw [if_neg (by rw [hnotempty]; exact Bool.false_ne_true)]
          rw [if_neg (by rw [hseglen]; omega)]
          have hr0 : readInt32 ((bytes.take e).drop pos) 0
              = readInt32 bytes pos := by
            have := readInt32_take_drop bytes e pos 0 (by omega) hle1
            simpa using this
          have hr4 : readInt32 ((bytes.take e).drop pos) 4
              = readInt32 bytes (pos + 4) := by
            exact readInt32_take_drop bytes e pos 4 (by omega) hle1
          rw [if_neg (by rw [hr0, hr4]; exact hneg)]
          rw [if_neg (by rw [hr0, hr4, hseglen]; omega)]
          rw [hr0, hr4]
          have hdrop2 : ((bytes.take e).drop pos).drop
              (9 + (readInt32 bytes pos).toNat + (readInt32 bytes (pos + 4)).toNat)
              = (bytes.take e).drop pos1 := by
            rw [List.drop_drop]
            have harith : pos + (9 + (readInt32 bytes pos).toNat
                + (readInt32 bytes (pos + 4)).toNat) = pos1 := by
              omega
            rw [harith]
          rw [hdrop2]
          exact ih pos1 (by omega) (by omega)

/-- C6: on any initial byte string, `binCheck` truncates the file at
the header offset of the first rejected record: the surviving content
is a prefix of the original bytes and parses cleanly as a sequence of
complete records, with no partial trailing record. -/
theorem binCheck_recovers (bytes : Bytes) :
    binCheckLoop bytes 0 ≤ bytes.length
    ∧ binCheckFile bytes = bytes.take (binCheckLoop bytes 0)
    ∧ parseRecords (binCheckFile bytes) = true := by
  refine ⟨binCheckLoop_le bytes bytes.length 0 (by omega) (by omega), rfl, ?_⟩
  have h := parseRecords_binCheckLoop bytes bytes.length 0 (by omega) (by omega)
  simpa [binCheckFile] using h

/-! ## RESP session (`Session`, partc/src/server.cpp) -/

/-- The numeric value of the leading decimal digits of a byte string
(accumulator form); parsing stops at the first non-digit. -/
def digitsVal : Bytes → Nat → Nat
  | [], acc => acc
  | b :: rest, acc =>
    if 48 ≤ b ∧ b ≤ 57 then digitsVal rest (acc * 10 + (b - 48)) else acc

/-- `std::stoi` as the session uses it: an optional minus sign
followed by leading decimal digits. -/
def parseIntB : Bytes → Int
  | [] => 0
  | b :: rest =>
    if b = 45 then -(digitsVal rest 0 : Int) else (digitsVal (b :: rest) 0 : Int)

/-- Decimal digit bytes of `n`, most significant first, with explicit
fuel (the fuel is structural, so the function evaluates by
reduction). -/
def natDigitsAux : Nat → Nat → Bytes
  | 0, _ => []
  | fuel + 1, n =>
    if n < 10 then [n + 48] else natDigitsAux fuel (n / 10) ++ [n % 10 + 48]

/-- `std::to_string` on a natural number: decimal ASCII digits, most
significant first. -/
def natDigits (n : Nat) : Bytes := natDigitsAux (n + 1) n

/-- The bytes of an ASCII string literal. -/
def strBytes (s : String) : Bytes := s.toList.map Char.toNat

/-- The parsing state of a `Session` (server.cpp, lines 42-46). -/
structure Session where
  current_command : List Bytes
  expected_parts : Int
  reading_bulk_string : Bool
  bulk_string_length : Int
  bulk_string : Bytes
deriving DecidableEq

/-- `Session::reset_state` (lines 200-206). -/
def resetState : Session := ⟨[], -1, false, 0, []⟩

/-- A freshly constructed session: the member initializers coincide
with `reset_state`. -/
def sessionInit : Session := resetState

/-- `Session::process_command` (server.cpp, lines 152-176): dispatch a
parsed command vector against the storage engine. -/
def process_command (H : Bytes → Nat) (args : List Bytes) (st : StorageEngine) :
    Bytes × StorageEngine :=
  if args.isEmpty then (strBytes "-ERR empty command\r\n", st)
  else if args.headD [] = strBytes "SET" ∧ args.length = 3 then
    (strBytes "+OK\r\n", phmInsert H (args.getD 1 []) (args.getD 2 []) st)
  else if args.headD [] = strBytes "GET" ∧ args.length = 2 then
    match phmGet H (args.getD 1 []) st with
    | (some v, st1) =>
      (strBytes "$" ++ natDigits v.length ++ strBytes "\r\n" ++ v ++ strBytes "\r\n", st1)
    | (none, st1) => (strBytes "$-1\r\n", st1)
  else if args.headD [] = strBytes "DEL" ∧ args.length = 2 then
    match phmErase H (args.getD 1 []) st with
    | (true, st1) => (strBytes ":1\r\n", st1)
    | (false, st1) => (strBytes ":0\r\n", st1)
  else (strBytes "-ERR unknown command or wrong number of arguments\r\n", st)

/-- `Session::process_line` (server.cpp, lines 103-142): while a bulk
string is being read, append the line; if the byte count matches the
announced length, the bulk is complete (otherwise a literal CRLF is
appended and reading continues); a completed command of
`expected_parts` parts is dispatched and the state reset.  Outside a
bulk, `*` lines set the expected part count and clear the command,
`$` lines start a bulk, and anything else is ignored (logged). -/
def process_line (H : Bytes → Nat) (ss : Session) (st : StorageEngine)
    (line : Bytes) : Session × StorageEngine × Option Bytes :=
  if ss.reading_bulk_string then
    if ((ss.bulk_string ++ line).length : Int) = ss.bulk_string_length then
      if (((ss.current_command ++ [ss.bulk_string ++ line]).length : Int))
          = ss.expected_parts then
        ((resetState,
          (process_command H (ss.current_command ++ [ss.bulk_string ++ line]) st).2,
          some (process_command H (ss.current_command ++ [ss.bulk_string ++ line]) st).1))
      else
        ({ ss with current_command := ss.current_command ++ [ss.bulk_string ++ line], reading_bulk_string := false, bulk_string := ss.bulk_string ++ line }, st, none)
    else
      ({ ss with bulk_string := ss.bulk_string ++ line ++ [13, 10] }, st, none)
  else
    match line with
    | [] => (ss, st, none)
    | c :: rest =>
      if c = 42 then
        ({ ss with expected_parts := parseIntB rest, current_command := [] }, st, none)
      else if c = 36 then
        ({ ss with bulk_string_length := parseIntB rest, reading_bulk_string := true, bulk_string := [] }, st, none)
      else (ss, st, none)

/-- One trailing carriage return is removed from each extracted line
(server.cpp, lines 83-86). -/
def stripCR (l : Bytes) : Bytes := if l.getLast? = some 13 then l.dropLast else l

/-- The successive `std::getline` extractions of the read loop: the
buffered input splits at every newline byte; a final segment not yet
terminated by a newline stays in the buffer unprocessed. -/
def splitLines : Bytes → List Bytes
  | [] => []
  | b :: rest =>
    if b = 10 then [] :: splitLines rest
    else
      match splitLines rest with
      | [] => []
      | l :: ls => (b :: l) :: ls

/-- The lines the session processes for a given raw input. -/
def getLines (s : Bytes) : List Bytes := (splitLines s).map stripCR

/-- Feed a list of lines through `process_line`, collecting responses
in order. -/
def runSession (H : Bytes → Nat) :
    List Bytes → Session → StorageEngine → Session × StorageEngine × List Bytes
  | [], ss, st => (ss, st, [])
  | line :: ls, ss, st =>
    let r := process_line H ss st line
    let rest := runSession H ls r.1 r.2.1
    (rest.1, rest.2.1,
      match r.2.2 with
      | some resp => resp :: rest.2.2
      | none => rest.2.2)

/-- Process a raw TCP byte stream: split it into lines as the read
loop does, then feed the session. -/
def runStream (H : Bytes → Nat) (input : Bytes) (ss : Session)
    (st : StorageEngine) : Session × StorageEngine × List Bytes :=
  runSession H (getLines input) ss st

/-- RESP encoding of one bulk string, as the clients put it on the
wire: `$<len>\r\n<bytes>\r\n`. -/
def encodeBulk (b : Bytes) : Bytes :=
  36 :: natDigits b.length ++ [13, 10] ++ b ++ [13, 10]

/-- RESP encoding of a whole command frame:
`*<n>\r\n` followed by the bulk strings. -/
def encodeFrame (args : List Bytes) : Bytes :=
  42 :: natDigits args.length ++ [13, 10] ++ (args.map encodeBulk).flatten

/-- C3 counterexample: a ready session that receives exactly the
complete empty array frame `*0\r\n` sends no reply at all (the claim
expects `-ERR empty command\r\n`): dispatch happens only when a bulk
string completes, and `*0\r\n` starts no bulk string. -/
theorem empty_frame_counterexample :
    runStream (fun _ => 0) (strBytes "*0\r\n") sessionInit (phmInit 64 1)
      = ({ sessionInit with expected_parts := 0 }, phmInit 64 1, []) := by
  rfl

/-- C3 amended: on `*0\r\n` the session records `expected_parts = 0`,
clears the pending command, sends no reply, and leaves the store
unchanged; `process_command` does reply `-ERR empty command\r\n` for an
empty argument vector, but `process_line` never reaches that branch on
the empty array frame because dispatch only follows a completed bulk
string. -/
theorem empty_frame_behavior (H : Bytes → Nat) (st : StorageEngine) :
    runStream H (strBytes "*0\r\n") sessionInit st
      = ({ sessionInit with expected_parts := 0 }, st, [])
    ∧ process_command H [] st = (strBytes "-ERR empty command\r\n", st) := by
  exact ⟨rfl, rfl⟩

/-- C9: command dispatch produces exactly the specified replies: a
complete `SET k v` yields `+OK\r\n` after the store insert; `GET k`
yields the length-prefixed value on a hit and `$-1\r\n` on a miss;
`DEL k` yields `:1\r\n` or `:0\r\n` as erase reports; any other
command name or wrong arity — e.g. the whole frame
`*1\r\n$4\r\nPING\r\n` — yields the unknown-command error with no
state change. -/
theorem process_command_dispatch (H : Bytes → Nat) (st : StorageEngine) :
    (∀ k v, process_command H [strBytes "SET", k, v] st
        = (strBytes "+OK\r\n", phmInsert H k v st))
    ∧ (∀ k, process_command H [strBytes "GET", k] st
        = ((match (phmGet H k st).1 with
            | some v => strBytes "$" ++ natDigits v.length ++ strBytes "\r\n"
                ++ v ++ strBytes "\r\n"
            | none => strBytes "$-1\r\n"), (phmGet H k st).2))
    ∧ (∀ k, process_command H [strBytes "DEL", k] st
        = ((if (phmErase H k st).1 then strBytes ":1\r\n" else strBytes ":0\r\n"),
           (phmErase H k st).2))
    ∧ (∀ cmd rest, cmd ≠ strBytes "SET" → cmd ≠ strBytes "GET" →
        cmd ≠ strBytes "DEL" → process_command H (cmd :: rest) st
          = (strBytes "-ERR unknown command or wrong number of arguments\r\n", st))
    ∧ (∀ rest, rest.length ≠ 2 → process_command H (strBytes "SET" :: rest) st
        = (strBytes "-ERR unknown command or wrong number of arguments\r\n", st))
    ∧ (∀ rest, rest.length ≠ 1 → process_command H (strBytes "GET" :: rest) st
        = (strBytes "-ERR unknown command or wrong number of arguments\r\n", st))
    ∧ (∀ rest, rest.length ≠ 1 → process_command H (strBytes "DEL" :: rest) st
        = (strBytes "-ERR unknown command or wrong number of arguments\r\n", st))
    ∧ runStream H (strBytes "*1\r\n$4\r\nPING\r\n") sessionInit st
        = (sessionInit, st,
           [strBytes "-ERR unknown command or wrong number of arguments\r\n"]) := by
  have hGS : strBytes "GET" ≠ strBytes "SET" := by decide
  have hDS : strBytes "DEL" ≠ strBytes "SET" := by decide
  have hDG : strBytes "DEL" ≠ strBytes "GET" := by decide
  refine ⟨?_, ?_, ?_, ?_, ?_, ?_, ?_, ?_⟩
  · intro k v
    unfold process_command
    simp
  · intro k
    unfold process_command
    cases hg : phmGet H k st with
    | mk o st1 =>
      cases o with
      | some v => simp [hGS, hg]
      | none => simp [hGS, hg]
  · intro k
    unfold process_command
    cases hg : phmErase H k st with
    | mk b st1 =>
      cases b with
      | true => simp [hDS, hDG, hg]
      | false => simp [hDS, hDG, hg]
  · intro cmd rest h1 h2 h3
    unfold process_command
    simp [h1, h2, h3]
  · intro rest hlen
    unfold process_command
    simp [hlen, (by decide : strBytes "SET" ≠ strBytes "GET"),
      (by decide : strBytes "SET" ≠ strBytes "DEL")]
  · intro rest hlen
    unfold process_command
    simp [hGS, hlen, (by decide : strBytes "GET" ≠ strBytes "DEL")]
  · intro rest hlen
    unfold process_command
    simp [hDS, hDG, hlen]
  · rfl

/-- Witness for C9's conditional clauses at concrete inputs: `PING`
and an under-supplied `SET`. -/
theorem process_command_dispatch_witness :
    process_command (fun _ => 0) [strBytes "PING"] (phmInit 64 1)
      = (strBytes "-ERR unknown command or wrong number of arguments\r\n", phmInit 64 1)
    ∧ process_command (fun _ => 0) [strBytes "SET", [5]] (phmInit 64 1)
      = (strBytes "-ERR unknown command or wrong number of arguments\r\n", phmInit 64 1) := by
  have h := process_command_dispatch (fun _ => 0) (phmInit 64 1)
  exact ⟨h.2.2.2.1 (strBytes "PING") [] (by decide) (by decide) (by decide),
    h.2.2.2.2.1 [[5]] (by decide)⟩

/-- C2 counterexample: the one-byte value `LF`.  `getline` splits the
input at every newline byte, so the SET frame's bulk body is cut at
the bare LF and the reassembly appends a literal CRLF where the wire
had only an LF; the byte count can then never reach the announced
length, the session swallows the rest of the input (including the
following GET frame) as bulk bytes, no reply is ever sent, and the
store is never updated. -/
theorem bare_lf_value_counterexample :
    (runStream (fun _ => 0)
        (encodeFrame [strBytes "SET", [107], [10]]
          ++ encodeFrame [strBytes "GET", [107]])
        sessionInit (phmInit 64 1)).2.2 = []
    ∧ (runStream (fun _ => 0)
        (encodeFrame [strBytes "SET", [107], [10]]
          ++ encodeFrame [strBytes "GET", [107]])
        sessionInit (phmInit 64 1)).2.1 = phmInit 64 1 := by
  exact ⟨rfl, rfl⟩

/-! ## Round-trip machinery for the amended C2 -/

theorem digitsVal_cons (b : Nat) (rest : Bytes) (acc : Nat) :
    digitsVal (b :: rest) acc
      = if 48 ≤ b ∧ b ≤ 57 then digitsVal rest (acc * 10 + (b - 48)) else acc := rfl

theorem digitsVal_append (xs ys : Bytes) (acc : Nat)
    (h : ∀ b ∈ xs, 48 ≤ b ∧ b ≤ 57) :
    digitsVal (xs ++ ys) acc = digitsVal ys (digitsVal xs acc) := by
  induction xs generalizing acc with
  | nil => rfl
  | cons b rest ih =>
    have hb := h b (List.mem_cons_self _ _)
    rw [List.cons_append, digitsVal_cons, if_pos hb, digitsVal_cons, if_pos hb]
    exact ih _ (fun x hx => h x (List.mem_cons_of_mem _ hx))

theorem natDigitsAux_spec : ∀ fuel n, n < 10 ^ fuel →
    (∀ b ∈ natDigitsAux fuel n, 48 ≤ b ∧ b ≤ 57)
    ∧ ∀ acc, digitsVal (natDigitsAux fuel n) acc
        = acc * 10 ^ (natDigitsAux fuel n).length + n := by
  intro fuel
  induction fuel with
  | zero =>
    intro n hn
    have : n = 0 := by
      simpa using hn
    subst this
    exact ⟨fun b hb => absurd hb (List.not_mem_nil b), fun acc => by
      simp [natDigitsAux, digitsVal]⟩
  | succ fuel ih =>
    intro n hn
    by_cases h10 : n < 10
    · refine ⟨fun b hb => ?_, fun acc => ?_⟩
      · rw [show natDigitsAux (fuel + 1) n = [n + 48] from by
          rw [natDigitsAux, if_pos h10]] at hb
        rcases List.mem_singleton.mp hb with rfl
        omega
      · rw [show natDigitsAux (fuel + 1) n = [n + 48] from by
          rw [natDigitsAux, if_pos h10]]
        rw [digitsVal_cons, if_pos (by omega : 48 ≤ n + 48 ∧ n + 48 ≤ 57)]
        simp only [digitsVal, List.length_singleton, pow_one]
        omega
    · have hdiv : n / 10 < 10 ^ fuel := by
        rw [pow_succ] at hn
        omega
      obtain ⟨ihd, ihv⟩ := ih (n / 10) hdiv
      have hshape : natDigitsAux (fuel + 1) n
          = natDigitsAux fuel (n / 10) ++ [n % 10 + 48] := by
        rw [natDigitsAux, if_neg h10]
      refine ⟨fun b hb => ?_, fun acc => ?_⟩
      · rw [hshape] at hb
        rcases List.mem_append.mp hb with hb | hb
        · exact ihd b hb
        · rcases List.mem_singleton.mp hb with rfl
          have := Nat.mod_lt n (show 0 < 10 by omega)
          omega
      · rw [hshape]
        rw [digitsVal_append _ _ _ ihd]
        have hd : 48 ≤ n % 10 + 48 ∧ n % 10 + 48 ≤ 57 := by
          have := Nat.mod_lt n (show 0 < 10 by omega)
          omega
        rw [digitsVal_cons, if_pos hd]
        simp only [digitsVal]
        rw [ihv acc, List.length_append, List.length_singleton]
        have hmod : n % 10 + 48 - 48 = n % 10 := by omega
        rw [hmod, pow_succ]
        have harith : (acc * 10 ^ (natDigitsAux fuel (n / 10)).length + n / 10) * 10
            + n % 10 = acc * (10 ^ (natDigitsAux fuel (n / 10)).length * 10)
            + (n / 10 * 10 + n % 10) := by ring
        rw [harith]
        have hdm : n / 10 * 10 + n % 10 = n := by omega
        rw [hdm]

theorem natDigits_digit (n : Nat) : ∀ b ∈ natDigits n, 48 ≤ b ∧ b ≤ 57 := by
  have hlt : n < 10 ^ (n + 1) := by
    calc n < n + 1 := by omega
      _ ≤ 10 ^ (n + 1) := by
        exact Nat.le_of_lt (Nat.lt_pow_self (by omega) _)
  exact (natDigitsAux_spec (n + 1) n hlt).1

theorem digitsVal_natDigits (n : Nat) : digitsVal (natDigits n) 0 = n := by
  have hlt : n < 10 ^ (n + 1) := by
    calc n < n + 1 := by omega
      _ ≤ 10 ^ (n + 1) := by
        exact Nat.le_of_lt (Nat.lt_pow_self (by omega) _)
  have h := (natDigitsAux_spec (n + 1) n hlt).2 0
  simpa [natDigits] using h

theorem natDigits_ne_nil (n : Nat) : natDigits n ≠ [] := by
  unfold natDigits natDigitsAux
  by_cases h : n < 10
  · rw [if_pos h]
    exact List.cons_ne_nil _ _
  · rw [if_neg h]
    intro hc
    rcases List.append_eq_nil.mp hc with ⟨_, h2⟩
    cases h2

theorem parseIntB_natDigits (n : Nat) : parseIntB (natDigits n) = (n : Int) := by
  cases hd : natDigits n with
  | nil => exact absurd hd (natDigits_ne_nil n)
  | cons b rest =>
    have hb : 48 ≤ b ∧ b ≤ 57 := by
      have := natDigits_digit n b
      rw [hd] at this
      exact this (List.mem_cons_self _ _)
    have hb45 : ¬b = 45 := by omega
    rw [parseIntB, if_neg hb45, ← hd, digitsVal_natDigits]

/-- A byte list with no newline byte. -/
def NoLF (x : Bytes) : Prop := ∀ b ∈ x, b ≠ 10

theorem natDigits_noLF (n : Nat) : NoLF (natDigits n) := by
  intro b hb
  have := natDigits_digit n b hb
  omega

theorem splitLines_cons_of_noLF {x : Bytes} (hx : NoLF x) (rest : Bytes) :
    splitLines (x ++ 10 :: rest) = x :: splitLines rest := by
  induction x with
  | nil => simp [splitLines]
  | cons b t ih =>
    have hb : b ≠ 10 := hx b (List.mem_cons_self _ _)
    have ht : NoLF t := fun c hc => hx c (List.mem_cons_of_mem _ hc)
    rw [List.cons_append]
    rw [show splitLines (b :: (t ++ 10 :: rest))
        = match splitLines (t ++ 10 :: rest) with
          | [] => []
          | l :: ls => (b :: l) :: ls from by
      rw [splitLines, if_neg hb]]
    rw [ih ht]

theorem stripCR_append_cr (x : Bytes) : stripCR (x ++ [13]) = x := by
  unfold stripCR
  rw [List.getLast?_concat, if_pos rfl, List.dropLast_concat]

theorem getLines_crlf {x : Bytes} (hx : NoLF x) (rest : Bytes) :
    getLines (x ++ 13 :: 10 :: rest) = x :: getLines rest := by
  have hx13 : NoLF (x ++ [13]) := by
    intro b hb
    rcases List.mem_append.mp hb with hb | hb
    · exact hx b hb
    · rcases List.mem_singleton.mp hb with rfl
      omega
  have hshape : x ++ 13 :: 10 :: rest = (x ++ [13]) ++ 10 :: rest := by
    simp
  rw [getLines, hshape, splitLines_cons_of_noLF hx13, List.map_cons,
    stripCR_append_cr]
  rfl

/-- The CRLF-clean byte strings: a concatenation of newline-free
chunks separated by CRLF pairs; equivalently, every LF byte is
immediately preceded by CR.  This is the class of values whose bulk
bodies the session reassembles faithfully. -/
inductive Chunks : Bytes → Prop where
  | single {x : Bytes} : NoLF x → Chunks x
  | more {x v : Bytes} : NoLF x → Chunks v → Chunks (x ++ 13 :: 10 :: v)

/-- The lines into which a CRLF-clean bulk body (followed by its
terminating CRLF) is split by the read loop. -/
def chunkLines (v : Bytes) : List Bytes := getLines (v ++ [13, 10])

theorem chunkLines_single {x : Bytes} (hx : NoLF x) : chunkLines x = [x] := by
  unfold chunkLines
  rw [show x ++ [13, 10] = x ++ 13 :: 10 :: [] from rfl, getLines_crlf hx]
  rfl

theorem chunkLines_more {x v : Bytes} (hx : NoLF x) :
    chunkLines (x ++ 13 :: 10 :: v) = x :: chunkLines v := by
  unfold chunkLines
  rw [show (x ++ 13 :: 10 :: v) ++ [13, 10] = x ++ 13 :: 10 :: (v ++ [13, 10]) from by
    simp, getLines_crlf hx]

theorem getLines_chunks {v : Bytes} (hv : Chunks v) (rest : Bytes) :
    getLines (v ++ 13 :: 10 :: rest) = chunkLines v ++ getLines rest := by
  induction hv generalizing rest with
  | single hx =>
    rw [getLines_crlf hx, chunkLines_single hx]
    rfl
  | more hx hch ih =>
    rename_i x v'
    have h1 : (x ++ 13 :: 10 :: v') ++ 13 :: 10 :: rest
        = x ++ 13 :: 10 :: (v' ++ 13 :: 10 :: rest) := by
      simp
    rw [h1, getLines_crlf hx, ih, chunkLines_more hx]
    rfl

theorem process_line_star (H : Bytes → Nat) (ss : Session) (st : StorageEngine)
    (n : Nat) (hread : ss.reading_bulk_string = false) :
    process_line H ss st (42 :: natDigits n)
      = ({ ss with expected_parts := (n : Int), current_command := [] }, st, none) := by
  unfold process_line
  rw [hread]
  simp [parseIntB_natDigits]

theorem process_line_dollar (H : Bytes → Nat) (ss : Session) (st : StorageEngine)
    (n : Nat) (hread : ss.reading_bulk_string = false) :
    process_line H ss st (36 :: natDigits n)
      = ({ ss with bulk_string_length := (n : Int), reading_bulk_string := true, bulk_string := [] }, st, none) := by
  unfold process_line
  rw [hread]
  simp [parseIntB_natDigits]

theorem runSession_cons (H : Bytes → Nat) (line : Bytes) (ls : List Bytes)
    (ss : Session) (st : StorageEngine) :
    runSession H (line :: ls) ss st
      = ((runSession H ls (process_line H ss st line).1
            (process_line H ss st line).2.1).1,
         (runSession H ls (process_line H ss st line).1
            (process_line H ss st line).2.1).2.1,
         match (process_line H ss st line).2.2 with
         | some resp => resp :: (runSession H ls (process_line H ss st line).1
             (process_line H ss st line).2.1).2.2
         | none => (runSession H ls (process_line H ss st line).1
             (process_line H ss st line).2.1).2.2) := rfl

theorem process_line_bulk (H : Bytes → Nat) (st : StorageEngine)
    (cc : List Bytes) (ep bl : Int) (B line : Bytes) :
    process_line H ⟨cc, ep, true, bl, B⟩ st line
      = if (((B ++ line).length : Nat) : Int) = bl then
          if (((cc ++ [B ++ line]).length : Nat) : Int) = ep then
            (resetState, (process_command H (cc ++ [B ++ line]) st).2,
             some (process_command H (cc ++ [B ++ line]) st).1)
          else (⟨cc ++ [B ++ line], ep, false, bl, B ++ line⟩, st, none)
        else (⟨cc, ep, true, bl, B ++ line ++ [13, 10]⟩, st, none) := rfl

/-- Feeding the lines of a CRLF-clean bulk body `v` to a session that
is reading a bulk with `B` already buffered and total announced length
`|B| + |v|`: the chunks are reassembled to exactly `B ++ v`; the
completed part either finishes the command (dispatch, reply, reset) or
is appended to it. -/
theorem runSession_chunks (H : Bytes → Nat) {v : Bytes} (hv : Chunks v) :
    ∀ (ls : List Bytes) (B : Bytes) (cc : List Bytes) (ep : Int)
      (st : StorageEngine),
    runSession H (chunkLines v ++ ls)
        ⟨cc, ep, true, ((B.length + v.length : Nat) : Int), B⟩ st
      = if ((cc.length + 1 : Nat) : Int) = ep then
          ((runSession H ls resetState (process_command H (cc ++ [B ++ v]) st).2).1,
           (runSession H ls resetState (process_command H (cc ++ [B ++ v]) st).2).2.1,
           (process_command H (cc ++ [B ++ v]) st).1
             :: (runSession H ls resetState (process_command H (cc ++ [B ++ v]) st).2).2.2)
        else
          runSession H ls
            ⟨cc ++ [B ++ v], ep, false, ((B.length + v.length : Nat) : Int), B ++ v⟩ st := by
  induction hv with
  | single hx =>
    rename_i x
    intro ls B cc ep st
    rw [chunkLines_single hx]
    rw [show ([x] ++ ls : List Bytes) = x :: ls from rfl]
    rw [runSession_cons, process_line_bulk]
    have hlen : (((B ++ x).length : Nat) : Int)
        = ((B.length + x.length : Nat) : Int) := by
      rw [List.length_append]
    rw [if_pos hlen]
    have hclen : (((cc ++ [B ++ x]).length : Nat) : Int)
        = ((cc.length + 1 : Nat) : Int) := by
      rw [List.length_append, List.length_singleton]
    rw [hclen]
    by_cases hep : ((cc.length + 1 : Nat) : Int) = ep
    · rw [if_pos hep, if_pos hep]
    · rw [if_neg hep, if_neg hep]
  | more hx hch ih =>
    rename_i x v'
    intro ls B cc ep st
    rw [chunkLines_more hx]
    rw [show ((x :: chunkLines v') ++ ls : List Bytes)
        = x :: (chunkLines v' ++ ls) from rfl]
    rw [runSession_cons, process_line_bulk]
    have hne : ¬(((B ++ x).length : Nat) : Int)
        = (((B.length + (x ++ 13 :: 10 :: v').length : Nat)) : Int) := by
      rw [List.length_append, List.length_append, List.length_cons,
        List.length_cons]
      intro hc
      have := Int.ofNat.inj hc
      omega
    rw [if_neg hne]
    have hB1 : ((B ++ x ++ [13, 10]).length + v'.length : Nat)
        = (B.length + (x ++ 13 :: 10 :: v').length : Nat) := by
      simp [List.length_append]
      omega
    have hih := ih ls (B ++ x ++ [13, 10]) cc ep st
    rw [hB1] at hih
    rw [hih]
    have hBv : B ++ x ++ [13, 10] ++ v' = B ++ (x ++ 13 :: 10 :: v') := by
      simp
    rw [hBv]

theorem process_line_star2 (H : Bytes → Nat) (st : StorageEngine)
    (cc : List Bytes) (ep bl0 : Int) (bu0 : Bytes) (n : Nat) :
    process_line H ⟨cc, ep, false, bl0, bu0⟩ st (42 :: natDigits n)
      = (⟨[], (n : Int), false, bl0, bu0⟩, st, none) :=
  process_line_star H ⟨cc, ep, false, bl0, bu0⟩ st n rfl

theorem process_line_dollar2 (H : Bytes → Nat) (st : StorageEngine)
    (cc : List Bytes) (ep bl0 : Int) (bu0 : Bytes) (n : Nat) :
    process_line H ⟨cc, ep, false, bl0, bu0⟩ st (36 :: natDigits n)
      = (⟨cc, ep, true, (n : Int), []⟩, st, none) :=
  process_line_dollar H ⟨cc, ep, false, bl0, bu0⟩ st n rfl

theorem runSession_star (H : Bytes → Nat) (ls : List Bytes) (cc : List Bytes)
    (ep bl0 : Int) (bu0 : Bytes) (st : StorageEngine) (n : Nat) :
    runSession H ((42 :: natDigits n) :: ls) ⟨cc, ep, false, bl0, bu0⟩ st
      = runSession H ls ⟨[], (n : Int), false, bl0, bu0⟩ st := by
  rw [runSession_cons, process_line_star2]

/-- Running one complete bulk unit — the `$<len>` header line followed
by the chunk lines of a CRLF-clean body `b` — from the
awaiting-bulk-header state: the body is appended to the command, and
the command is dispatched exactly when it reaches the expected part
count. -/
theorem runSession_bulk_unit (H : Bytes → Nat) {b : Bytes} (hb : Chunks b)
    (ls : List Bytes) (cc : List Bytes) (ep bl0 : Int) (bu0 : Bytes)
    (st : StorageEngine) :
    runSession H ((36 :: natDigits b.length) :: (chunkLines b ++ ls))
        ⟨cc, ep, false, bl0, bu0⟩ st
      = if ((cc.length + 1 : Nat) : Int) = ep then
          ((runSession H ls resetState (process_command H (cc ++ [b]) st).2).1,
           (runSession H ls resetState (process_command H (cc ++ [b]) st).2).2.1,
           (process_command H (cc ++ [b]) st).1
             :: (runSession H ls resetState (process_command H (cc ++ [b]) st).2).2.2)
        else
          runSession H ls ⟨cc ++ [b], ep, false, (b.length : Int), b⟩ st := by
  rw [runSession_cons, process_line_dollar2]
  have h0 : ((([] : Bytes).length + b.length : Nat) : Int) = ((b.length : Nat) : Int) := by
    simp
  have hch := runSession_chunks H hb ls [] cc ep st
  rw [h0, List.nil_append] at hch
  rw [hch]

theorem noLF_cons_digits (c n : Nat) (hc : c ≠ 10) : NoLF (c :: natDigits n) := by
  intro x hx
  rcases List.mem_cons.mp hx with hx | hx
  · exact hx ▸ hc
  · exact natDigits_noLF n x hx

theorem getLines_bulks (args : List Bytes) (h : ∀ a ∈ args, Chunks a)
    (rest : Bytes) :
    getLines ((args.map encodeBulk).flatten ++ rest)
      = (args.map (fun a => (36 :: natDigits a.length) :: chunkLines a)).flatten
        ++ getLines rest := by
  induction args with
  | nil => simp
  | cons a t ih =>
    have ha : Chunks a := h a (List.mem_cons_self _ _)
    have hshape : (((a :: t).map encodeBulk).flatten ++ rest : Bytes)
        = (36 :: natDigits a.length)
          ++ 13 :: 10 :: (a ++ 13 :: 10 :: ((t.map encodeBulk).flatten ++ rest)) := by
      simp [encodeBulk]
    rw [hshape, getLines_crlf (noLF_cons_digits 36 a.length (by omega)),
      getLines_chunks ha, ih (fun x hx => h x (List.mem_cons_of_mem _ hx))]
    simp

theorem getLines_frame (args : List Bytes) (h : ∀ a ∈ args, Chunks a)
    (rest : Bytes) :
    getLines (encodeFrame args ++ rest)
      = (42 :: natDigits args.length)
        :: ((args.map (fun a => (36 :: natDigits a.length) :: chunkLines a)).flatten
          ++ getLines rest) := by
  have hshape : (encodeFrame args ++ rest : Bytes)
      = (42 :: natDigits args.length)
        ++ 13 :: 10 :: ((args.map encodeBulk).flatten ++ rest) := by
    simp [encodeFrame]
  rw [hshape, getLines_crlf (noLF_cons_digits 42 args.length (by omega)),
    getLines_bulks args h rest]

/-- After `insert(k, v)` on a fresh store with at least one shard,
`get(k)` answers `v` (the shard is coherent, so the cache hit and the
file scan agree). -/
theorem phmGet_after_insert (H : Bytes → Nat) (K n : Nat) (k v : Bytes)
    (hn : 0 < n) :
    (phmGet H k (phmInsert H k v (phmInit K n))).1 = some v := by
  have hi : H k % n < n := Nat.mod_lt _ hn
  have hrep : (List.replicate n (binInit K))[H k % n]? = some (binInit K) :=
    List.getElem?_replicate_of_lt hi
  have hset : ((List.replicate n (binInit K)).set (H k % n)
      (binInsert k v (binInit K)))[H k % n]? = some (binInsert k v (binInit K)) := by
    refine List.getElem?_set_self ?_
    rw [List.length_replicate]
    exact hi
  have hgood : GoodBin (binInsert k v (binInit K)) :=
    goodBin_binInsert k v _ (goodBin_binInit K)
  simp only [phmInsert, phmGet, phmHash, phmInit, hrep, hset]
  rw [binGet_fst k _ hgood]
  rw [show (binInsert k v (binInit K)).file = insertFile k v [] from rfl]
  exact fileGet_insertFile_self k v [] (by simp [liveFor])

/-- C2 amended: SET-then-GET round-trips exactly for every key and
value whose LF bytes all sit inside CRLF pairs (`Chunks`), including
values containing CR, CRLF and NUL bytes: the session replies `+OK`
and then the length-prefixed original value.  (A value with a bare LF
is cut by `getline` and reassembled with an extra CR, so it does not
round-trip — see the counterexample.) -/
theorem crlf_value_roundtrip (H : Bytes → Nat) (K n : Nat) (k v : Bytes)
    (hk : Chunks k) (hv : Chunks v) (hn : 0 < n) :
    (runStream H
        (encodeFrame [strBytes "SET", k, v] ++ encodeFrame [strBytes "GET", k])
        sessionInit (phmInit K n)).2.2
      = [strBytes "+OK\r\n",
         strBytes "$" ++ natDigits v.length ++ strBytes "\r\n" ++ v
           ++ strBytes "\r\n"] := by
  have hSET : Chunks (strBytes "SET") := Chunks.single (by
    unfold NoLF
    decide)
  have hGET : Chunks (strBytes "GET") := Chunks.single (by
    unfold NoLF
    decide)
  have hmem1 : ∀ a ∈ [strBytes "SET", k, v], Chunks a := by
    intro a ha
    rcases List.mem_cons.mp ha with rfl | ha
    · exact hSET
    rcases List.mem_cons.mp ha with rfl | ha
    · exact hk
    rcases List.mem_cons.mp ha with rfl | ha
    · exact hv
    · exact absurd ha (List.not_mem_nil a)
  have hmem2 : ∀ a ∈ [strBytes "GET", k], Chunks a := by
    intro a ha
    rcases List.mem_cons.mp ha with rfl | ha
    · exact hGET
    rcases List.mem_cons.mp ha with rfl | ha
    · exact hk
    · exact absurd ha (List.not_mem_nil a)
  unfold runStream
  rw [getLines_frame [strBytes "SET", k, v] hmem1 (encodeFrame [strBytes "GET", k])]
  rw [show (encodeFrame [strBytes "GET", k] : Bytes)
      = encodeFrame [strBytes "GET", k] ++ ([] : Bytes) from (List.append_nil _).symm]
  rw [getLines_frame [strBytes "GET", k] hmem2 []]
  rw [show getLines [] = [] from rfl]
  simp only [List.map_cons, List.map_nil, List.flatten_cons, List.flatten_nil,
    List.append_nil, List.append_assoc, List.cons_append, List.nil_append]
  rw [show sessionInit = (⟨[], -1, false, 0, []⟩ : Session) from rfl]
  rw [runSession_star]
  rw [runSession_bulk_unit H hSET]
  rw [if_neg (by simp)]
  simp only [List.cons_append, List.nil_append]
  rw [runSession_bulk_unit H hk]
  rw [if_neg (by simp)]
  simp only [List.cons_append, List.nil_append]
  rw [runSession_bulk_unit H hv]
  rw [if_pos (by simp)]
  simp only [List.cons_append, List.nil_append]
  rw [(process_command_dispatch H (phmInit K n)).1 k v]
  rw [show resetState = (⟨[], -1, false, 0, []⟩ : Session) from rfl]
  rw [runSession_star]
  rw [runSession_bulk_unit H hGET]
  rw [if_neg (by simp)]
  simp only [List.cons_append, List.nil_append]
  rw [show (chunkLines k : List Bytes) = chunkLines k ++ []
      from (List.append_nil _).symm]
  rw [runSession_bulk_unit H hk]
  rw [if_pos (by simp)]
  simp only [List.cons_append, List.nil_append]
  rw [(process_command_dispatch H (phmInsert H k v (phmInit K n))).2.1 k]
  rw [phmGet_after_insert H K n k v hn]
  simp [List.append_assoc]
  rfl

/-- Witness for the amended C2: a value containing NUL, CR and a CRLF
pair round-trips through SET and GET on a one-shard store. -/
theorem crlf_value_roundtrip_witness :
    (runStream (fun _ => 0)
        (encodeFrame [strBytes "SET", [107], [0, 13] ++ 13 :: 10 :: [65]]
          ++ encodeFrame [strBytes "GET", [107]])
        sessionInit (phmInit 64 1)).2.2
      = [strBytes "+OK\r\n",
         strBytes "$" ++ natDigits ([0, 13] ++ 13 :: 10 :: [65] : Bytes).length
           ++ strBytes "\r\n" ++ ([0, 13] ++ 13 :: 10 :: [65]) ++ strBytes "\r\n"] :=
  crlf_value_roundtrip (fun _ => 0) 64 1 [107] ([0, 13] ++ 13 :: 10 :: [65])
    (Chunks.single (by
      unfold NoLF
      decide))
    (Chunks.more (by
      unfold NoLF
      decide)
      (Chunks.single (by
        unfold NoLF
        decide)))
    (by decide)
